import Mathlib

/-!
# Verification of the pufu binary serialization core

A shallow embedding of the `pufu` serialization framework
(`src/core/src/{encoder,decoder,encode,decode,data_type,fixed_decode}.rs`
and the derivation logic in `src/macros/src/common.rs`), together with
theorems settling the specification claims about it.

Modelling conventions:
* bytes are `Nat` values (a real buffer has all entries `< 256`);
* Rust `u32` arithmetic is `Nat` arithmetic with explicit guards against
  `u32::MAX` where the source uses `checked_add` / `checked_mul` /
  `u32::try_from`, and explicit `% 2^32` where the source uses `as u32`;
* fallible operations return `Except CodecError`; a Rust panic is `Option.none`;
* `&mut self` methods on the decoder return a pair of the Rust return value
  and the post-call state.
-/

namespace Pufu

/-- `u32::MAX`. -/
def u32max : Nat := 4294967295

/-- `2^32`, the modulus of `as u32` casts. -/
def u32mod : Nat := 4294967296

/-- Endianness policy (`Endian` in `src/core/src/lib.rs`). Not serialized. -/
inductive Endian where
  | little
  | big
  | native
deriving DecidableEq, Repr

/-- Error type for codec operations (`CodecError` in `src/core/src/codec.rs`). -/
inductive CodecError where
  | invalidLength
  | validationFailed
  | message (s : String)
deriving DecidableEq, Repr

instance {ε α : Type} [DecidableEq ε] [DecidableEq α] : DecidableEq (Except ε α) := fun
  | .error a, .error b =>
      if h : a = b then .isTrue (h ▸ rfl) else .isFalse (fun hh => h (Except.error.inj hh))
  | .error _, .ok _ => .isFalse (fun hh => Except.noConfusion hh)
  | .ok _, .error _ => .isFalse (fun hh => Except.noConfusion hh)
  | .ok a, .ok b =>
      if h : a = b then .isTrue (h ▸ rfl) else .isFalse (fun hh => h (Except.ok.inj hh))

/-- The `w` little-endian bytes of `v` (Rust `to_le_bytes` truncated/padded to
width `w`; for an in-range value `v < 256 ^ w` this is exact). -/
def leBytes : Nat → Nat → List Nat
  | 0, _ => []
  | w + 1, v => v % 256 :: leBytes w (v / 256)

/-- Value of a little-endian byte string (Rust `from_le_bytes`). -/
def readLE (bs : List Nat) : Nat :=
  bs.foldr (fun b acc => b + 256 * acc) 0

/-- `push_fixed_data` for a `w`-byte unsigned scalar
(`src/core/src/data_type.rs`, `impl_fixed_data_type_for_primitive!`):
`Little` and `Native` emit little-endian bytes (the source maps `Native` to
`to_le_bytes`), `Big` emits big-endian bytes. -/
def pushFixedData (endian : Endian) (w v : Nat) : List Nat :=
  match endian with
  | .little => leBytes w v
  | .big => (leBytes w v).reverse
  | .native => leBytes w v

/-- `write_u32_endian` (`src/core/src/encoder.rs` lines 6-13): writes a `u32`
under the configured endianness; `Native` is the host byte order
(`to_ne_bytes`), abstracted by the `hostBig` parameter. -/
def write_u32_endian (hostBig : Bool) (endian : Endian) (n : Nat) : List Nat :=
  match endian with
  | .little => leBytes 4 n
  | .big => (leBytes 4 n).reverse
  | .native => if hostBig then (leBytes 4 n).reverse else leBytes 4 n

/-- Encoder state (`Encoder` in `src/core/src/encoder.rs`). The `config`
field is reduced to its `endian` component: `finalize` reads only
`config.endian`, and `magic` / `version` are used only by
`finalize_with_magic_version`, which is outside the claims. -/
structure Encoder where
  endian : Endian
  fixed : List Nat
  var_length : List Nat
  data : List Nat
deriving DecidableEq, Repr

/-- The entry-writing loop of `Encoder::finalize` (lines 75-81): walks the
`var_length` list emitting a running absolute offset, with `checked_add`
overflow guards. -/
def writeEntries (hostBig : Bool) (endian : Endian) : Nat → List Nat → Except CodecError (List Nat)
  | _, [] => .ok []
  | cur, l :: ls =>
    if cur + l ≤ u32max then
      match writeEntries hostBig endian (cur + l) ls with
      | .ok rest => .ok (write_u32_endian hostBig endian cur ++ rest)
      | .error e => .error e
    else .error .invalidLength

/-- `Encoder::finalize` (`src/core/src/encoder.rs` lines 46-84): appends
header, fixed region, var index and data region to `out`. All failing
`u32::try_from` / `checked_add` / `checked_mul` become explicit guards. -/
def Encoder.finalize (hostBig : Bool) (e : Encoder) (out : List Nat) : Except CodecError (List Nat) :=
  if e.fixed.length > u32max then .error .invalidLength
  else if e.var_length.length * 4 > u32max then .error .invalidLength
  else if e.data.length > u32max then .error .invalidLength
  else if 8 + e.fixed.length + e.var_length.length * 4 + e.data.length > u32max then
    .error .invalidLength
  else
    match writeEntries hostBig e.endian (8 + e.fixed.length + e.var_length.length * 4)
        e.var_length with
    | .ok entries =>
        .ok (out ++ write_u32_endian hostBig e.endian
                      (8 + e.fixed.length + e.var_length.length * 4 + e.data.length)
                 ++ write_u32_endian hostBig e.endian (8 + e.fixed.length)
                 ++ e.fixed ++ entries ++ e.data)
    | .error er => .error er

/-- Decoder state (`Decoder` in `src/core/src/decoder.rs`). All fields are
public in the source; the borrowed buffer is `buf`. -/
structure Decoder where
  buf : List Nat
  total_len : Nat
  var_idx_offset : Nat
  data_offset : Nat
  fixed_cursor : Nat
  var_cursor : Nat
  endian : Endian
deriving DecidableEq, Repr

/-- Read the little-endian `u32` at byte offset `i` of `buf`
(`u32::from_le_bytes` of `buf[i..i+4]`; callers check bounds first). -/
def readU32LE (buf : List Nat) (i : Nat) : Nat :=
  readLE ((buf.drop i).take 4)

/-- The slice `buf[s..e]` (callers validate `s ≤ e ≤ buf.len()` first; Rust
would panic outside those bounds, the model truncates). -/
def sliceL (l : List Nat) (s e : Nat) : List Nat :=
  (l.drop s).take (e - s)

/-- Resolution of `data_offset` during decoder construction
(`Decoder::with_endian`, lines 77-89, inlined in the source): if
`total_len == var_idx_offset` the payload is index-free and `data_offset`
is `var_idx_offset`; otherwise the first VarIndex entry is read (failing if
it does not fit in the buffer). -/
def resolveDataOffset (buf : List Nat) (total_len var_idx_offset : Nat) : Except CodecError Nat :=
  if total_len = var_idx_offset then .ok var_idx_offset
  else if var_idx_offset + 4 > buf.length then .error .invalidLength
  else .ok (readU32LE buf var_idx_offset)

/-- `Decoder::with_endian` (`src/core/src/decoder.rs` lines 49-113): parses
and validates the 8-byte header and the derived `data_offset`.
`Decoder::new` is `with_endian buf .little`. -/
def Decoder.withEndian (buf : List Nat) (endian : Endian) : Except CodecError Decoder :=
  if buf.length < 8 then .error .invalidLength
  else if readU32LE buf 0 > buf.length then .error .invalidLength
  else if readU32LE buf 4 < 8 then .error .invalidLength
  else if readU32LE buf 4 > readU32LE buf 0 then .error .invalidLength
  else
    match resolveDataOffset buf (readU32LE buf 0) (readU32LE buf 4) with
    | .error er => .error er
    | .ok data_offset =>
      if data_offset < readU32LE buf 4 then .error .invalidLength
      else if data_offset > readU32LE buf 0 then .error .invalidLength
      else if readU32LE buf 0 > readU32LE buf 4 ∧ data_offset = readU32LE buf 4 then
        .error .invalidLength
      else if (data_offset - readU32LE buf 4) % 4 ≠ 0 then .error .invalidLength
      else .ok { buf := buf, total_len := readU32LE buf 0, var_idx_offset := readU32LE buf 4,
                 data_offset := data_offset, fixed_cursor := 0, var_cursor := 0,
                 endian := endian }

/-- `Decoder::new` (defaults to little-endian). -/
def Decoder.new (buf : List Nat) : Except CodecError Decoder :=
  Decoder.withEndian buf .little

/-- `Decoder::var_count`: `(data_offset - var_idx_offset) / 4`. -/
def Decoder.varCount (d : Decoder) : Nat :=
  (d.data_offset - d.var_idx_offset) / 4

/-- `Decoder::next_fixed_bytes` (lines 138-167). Returns the Rust return
value together with the post-call decoder state; every `checked_sub` /
`checked_add` failure is an explicit guard that leaves the state unchanged. -/
def Decoder.nextFixedBytes (d : Decoder) (len : Nat) : Except CodecError (List Nat) × Decoder :=
  if d.var_idx_offset < 8 then (.error .invalidLength, d)
  else if d.fixed_cursor > d.var_idx_offset - 8 then (.error .invalidLength, d)
  else if len > d.var_idx_offset - 8 - d.fixed_cursor then (.error .invalidLength, d)
  else if d.fixed_cursor + 8 > u32max then (.error .invalidLength, d)
  else if d.fixed_cursor + 8 + len > u32max then (.error .invalidLength, d)
  else if d.fixed_cursor + len > u32max then (.error .invalidLength, d)
  else (.ok (sliceL d.buf (d.fixed_cursor + 8) (d.fixed_cursor + 8 + len)),
        { d with fixed_cursor := d.fixed_cursor + len })

/-- `Decoder::next_var_index` (lines 229-237): returns the current VarIndex
entry index and advances `var_cursor`. -/
def Decoder.nextVarIndex (d : Decoder) : Except CodecError Nat × Decoder :=
  if d.var_cursor ≥ d.varCount then (.error .invalidLength, d)
  else (.ok d.var_cursor, { d with var_cursor := d.var_cursor + 1 })

/-- `Decoder::read_entry` (lines 201-226): reads the `u32` VarIndex entry at
`entry_idx` (pure, `&self`). -/
def Decoder.readEntry (d : Decoder) (entry_idx : Nat) : Except CodecError Nat :=
  if entry_idx * 4 > u32max then .error .invalidLength
  else if d.var_idx_offset + entry_idx * 4 > u32max then .error .invalidLength
  else if d.var_idx_offset + entry_idx * 4 + 4 > u32max then .error .invalidLength
  else if d.var_idx_offset + entry_idx * 4 + 4 > d.data_offset ∨
      d.var_idx_offset + entry_idx * 4 + 4 > d.total_len then .error .invalidLength
  else if d.var_idx_offset + entry_idx * 4 + 4 > d.buf.length then .error .invalidLength
  else .ok (readU32LE d.buf (d.var_idx_offset + entry_idx * 4))

/-- `Decoder::next_var` (lines 175-198): reads the current entry as the
segment start, the following entry (or `total_len`) as the segment end,
validates the span and returns the borrowed slice. Note that the cursor has
already been advanced by `next_var_index` when a later validation fails. -/
def Decoder.nextVar (d : Decoder) : Except CodecError (List Nat) × Decoder :=
  match d.nextVarIndex with
  | (.error er, d') => (.error er, d')
  | (.ok idx, d') =>
    match d'.readEntry idx with
    | .error er => (.error er, d')
    | .ok start_abs =>
      match (if idx + 1 < d'.varCount then d'.readEntry (idx + 1) else .ok d'.total_len) with
      | .error er => (.error er, d')
      | .ok end_abs =>
        if start_abs < d'.data_offset ∨ end_abs < start_abs ∨ end_abs > d'.total_len then
          (.error .invalidLength, d')
        else if end_abs > d'.buf.length then (.error .invalidLength, d')
        else (.ok (sliceL d'.buf start_abs end_abs), d')

/-! ## Field-level encode (`src/core/src/encode.rs`, `src/core/src/data_type.rs`) -/

/-- A record field value of one of the six shapes covered by the `Encode` /
`Decode` impls: a `w`-byte unsigned scalar, a fixed array of `w`-byte
scalars (`[T; N]`), `Vec<u8>`, `Vec<T>` of `w`-byte fixed scalars,
`Vec<Vec<u8>>` and `Vec<Vec<T>>`. -/
inductive FieldVal where
  | fixedScalar (w v : Nat)
  | fixedArray (w : Nat) (vs : List Nat)
  | var1Bytes (bs : List Nat)
  | var1Fixed (w : Nat) (vs : List Nat)
  | var2Bytes (ss : List (List Nat))
  | var2Fixed (w : Nat) (ss : List (List Nat))
deriving DecidableEq, Repr

/-- `push_var1_data` for `&[T]` with `T` fixed of width `w`
(`src/core/src/data_type.rs` lines 152-171): serializes each element into
`data` and pushes the accumulated byte length (`length as u32`) onto
`var_length`. -/
def pushVar1Data (endian : Endian) (w : Nat) (vs : List Nat)
    (var_length data : List Nat) : List Nat × List Nat :=
  (var_length ++ [(vs.length * w) % u32mod],
   data ++ (vs.map (pushFixedData endian w)).flatten)

/-- `Encode::encode_field` (`src/core/src/encode.rs`): fixed values append
to the fixed region; a `Vec` of fixed elements is one var1 segment; a `Vec`
of `Vec`s (`T::MODE == Var1`) panics (`Option.none`) unless `IS_LAST_VAR`,
otherwise pushes one var1 segment per inner vector. -/
def encodeField (isLastVar : Bool) (fv : FieldVal) (e : Encoder) : Option Encoder :=
  match fv with
  | .fixedScalar w v => some { e with fixed := e.fixed ++ pushFixedData e.endian w v }
  | .fixedArray w vs => some { e with fixed := e.fixed ++ (vs.map (pushFixedData e.endian w)).flatten }
  | .var1Bytes bs =>
      let p := pushVar1Data e.endian 1 bs e.var_length e.data
      some { e with var_length := p.1, data := p.2 }
  | .var1Fixed w vs =>
      let p := pushVar1Data e.endian w vs e.var_length e.data
      some { e with var_length := p.1, data := p.2 }
  | .var2Bytes ss =>
      if isLastVar then
        some (ss.foldl (fun acc s =>
          let p := pushVar1Data acc.endian 1 s acc.var_length acc.data
          { acc with var_length := p.1, data := p.2 }) e)
      else none
  | .var2Fixed w ss =>
      if isLastVar then
        some (ss.foldl (fun acc s =>
          let p := pushVar1Data acc.endian w s acc.var_length acc.data
          { acc with var_length := p.1, data := p.2 }) e)
      else none

/-! ## Field-level decode (`src/core/src/decode.rs`, `src/core/src/fixed_decode.rs`) -/

/-- The wire type of a field, as used to pick the `Decode` impl. -/
inductive FieldTy where
  | scalarTy (w : Nat)
  | arrTy (w n : Nat)
  | bytesTy
  | fixedSeqTy (w : Nat)
  | bytesSeqTy
  | fixedSeqSeqTy (w : Nat)
deriving DecidableEq, Repr

/-- The decoded view of a field (`Decode::View`): scalars and arrays by
value, `Vec<u8>` as a borrowed slice, `Vec<T>` as decoded values,
`Vec<Vec<u8>>` as borrowed slices, `Vec<Vec<T>>` as decoded values. -/
inductive FieldView where
  | scalarV (v : Nat)
  | arrV (vs : List Nat)
  | bytesV (bs : List Nat)
  | fixedSeqV (vs : List Nat)
  | bytesSeqV (ss : List (List Nat))
  | fixedSeqSeqV (ss : List (List Nat))
deriving DecidableEq, Repr

/-- `FixedDecode::decode` value reconstruction
(`src/core/src/fixed_decode.rs` lines 23-27): `Little` and `Native` read
little-endian (`Native` maps to `from_le_bytes`), `Big` reads big-endian. -/
def readFixed (endian : Endian) (bs : List Nat) : Nat :=
  match endian with
  | .little => readLE bs
  | .big => readLE bs.reverse
  | .native => readLE bs

/-- `bytes.chunks_exact(w)` (full chunks only), via structural fuel
recursion; `chunksExact` instantiates the fuel with `bs.length`, which
bounds the number of chunks. -/
def chunksExactGo (w : Nat) : Nat → List Nat → List (List Nat)
  | 0, _ => []
  | fuel + 1, bs =>
    if w = 0 ∨ bs.length < w then []
    else bs.take w :: chunksExactGo w fuel (bs.drop w)

/-- `bytes.chunks_exact(w)` as a list of full `w`-byte chunks. -/
def chunksExact (w : Nat) (bs : List Nat) : List (List Nat) :=
  chunksExactGo w bs.length bs

/-- `decode_fixed_slice` (`src/core/src/decode.rs` lines 22-35): rejects a
zero element width or a byte length that is not a multiple of it, otherwise
decodes each `w`-byte chunk. -/
def decodeFixedSlice (w : Nat) (endian : Endian) (bs : List Nat) : Except CodecError (List Nat) :=
  if w = 0 ∨ bs.length % w ≠ 0 then .error .invalidLength
  else .ok ((chunksExact w bs).map (readFixed endian))

/-- The `while decoder.var_cursor < count` loop shared by the
`Vec<Vec<u8>>` and `Vec<Vec<T>>` `decode_field` impls
(`src/core/src/decode.rs` lines 129-135 and 167-173): each iteration calls
`next_var` and decodes the segment with `dec`. The fuel argument is only an
iteration bound (each successful `next_var` advances `var_cursor` by one,
so `varCount d - d.var_cursor` fuel is enough). -/
def var2Loop (dec : List Nat → Except CodecError (List Nat)) :
    Nat → Decoder → Except CodecError (List (List Nat)) × Decoder
  | 0, d => (.ok [], d)
  | fuel + 1, d =>
    if d.var_cursor < d.varCount then
      match d.nextVar with
      | (.error er, d') => (.error er, d')
      | (.ok bs, d') =>
        match dec bs with
        | .error er => (.error er, d')
        | .ok item =>
          match var2Loop dec fuel d' with
          | (.error er, d'') => (.error er, d'')
          | (.ok items, d'') => (.ok (item :: items), d'')
    else (.ok [], d)

/-- `Decode::decode_field` (`src/core/src/decode.rs`): scalars and arrays
read from the fixed region (the array byte length is `(w * n) as u32`,
line 88), `Vec<u8>` / `Vec<T>` consume one variable segment, and the
`Vec<Vec<_>>` impls require `IS_LAST_VAR` and drain all remaining
segments. Returns the Rust result paired with the post-call decoder. -/
def decodeField (isLastVar : Bool) (ty : FieldTy) (d : Decoder) :
    Except CodecError FieldView × Decoder :=
  match ty with
  | .scalarTy w =>
    match d.nextFixedBytes w with
    | (.error er, d') => (.error er, d')
    | (.ok bs, d') =>
      if bs.length = w then (.ok (.scalarV (readFixed d'.endian bs)), d')
      else (.error .invalidLength, d')
  | .arrTy w n =>
    match d.nextFixedBytes ((w * n) % u32mod) with
    | (.error er, d') => (.error er, d')
    | (.ok bs, d') =>
      match decodeFixedSlice w d'.endian bs with
      | .error er => (.error er, d')
      | .ok items =>
        if items.length = n then (.ok (.arrV items), d')
        else (.error .invalidLength, d')
  | .bytesTy =>
    match d.nextVar with
    | (.error er, d') => (.error er, d')
    | (.ok bs, d') => (.ok (.bytesV bs), d')
  | .fixedSeqTy w =>
    match d.nextVar with
    | (.error er, d') => (.error er, d')
    | (.ok bs, d') =>
      match decodeFixedSlice w d'.endian bs with
      | .error er => (.error er, d')
      | .ok items => (.ok (.fixedSeqV items), d')
  | .bytesSeqTy =>
    if isLastVar then
      match var2Loop (fun bs => .ok bs) (d.varCount - d.var_cursor) d with
      | (.error er, d') => (.error er, d')
      | (.ok items, d') => (.ok (.bytesSeqV items), d')
    else (.error .invalidLength, d)
  | .fixedSeqSeqTy w =>
    if isLastVar then
      match var2Loop (decodeFixedSlice w d.endian) (d.varCount - d.var_cursor) d with
      | (.error er, d') => (.error er, d')
      | (.ok items, d') => (.ok (.fixedSeqSeqV items), d')
    else (.error .invalidLength, d)

/-! ## Record-level walks (the derived `encode_field` / `decode_field`
bodies walk the fields in declared order; `src/macros/src/encode.rs`,
`src/macros/src/decode.rs`) -/

/-- Encode a record's fields in declared order, each with its
`IS_LAST_VAR` flag. -/
def encodeFields : List (FieldVal × Bool) → Encoder → Option Encoder
  | [], e => some e
  | (fv, b) :: ps, e =>
    match encodeField b fv e with
    | some e' => encodeFields ps e'
    | none => none

/-- Decode a record's fields in declared order, each with its
`IS_LAST_VAR` flag. -/
def decodeFields : List (FieldTy × Bool) → Decoder → Except CodecError (List FieldView) × Decoder
  | [], d => (.ok [], d)
  | (ty, b) :: ps, d =>
    match decodeField b ty d with
    | (.error er, d') => (.error er, d')
    | (.ok v, d') =>
      match decodeFields ps d' with
      | (.error er, d'') => (.error er, d'')
      | (.ok vs, d'') => (.ok (v :: vs), d'')

/-- Whether a field is variable-length (var1 or var2). -/
def isVarField : FieldVal → Bool
  | .fixedScalar _ _ => false
  | .fixedArray _ _ => false
  | _ => true

/-- Whether a field is a var2 (sequence-of-sequences) field. -/
def isVar2 : FieldVal → Bool
  | .var2Bytes _ => true
  | .var2Fixed _ _ => true
  | _ => false

/-- Index of the last variable-length field of a record, if any. -/
def lastVarIdx : List FieldVal → Option Nat
  | [] => none
  | fv :: rest =>
    match lastVarIdx rest with
    | some j => some (j + 1)
    | none => if isVarField fv then some 0 else none

/-- Pair each field with its `IS_LAST_VAR` flag: `true` exactly on the
last variable-length field of the record. -/
def withFlags : List FieldVal → List (FieldVal × Bool)
  | [] => []
  | fv :: rest => (fv, (lastVarIdx rest).isNone && isVarField fv) :: withFlags rest

/-- The wire type of a field value. -/
def tyOf : FieldVal → FieldTy
  | .fixedScalar w _ => .scalarTy w
  | .fixedArray w vs => .arrTy w vs.length
  | .var1Bytes _ => .bytesTy
  | .var1Fixed w _ => .fixedSeqTy w
  | .var2Bytes _ => .bytesSeqTy
  | .var2Fixed w _ => .fixedSeqSeqTy w

/-- The expected decoded view of a field value: scalars and arrays by
value, variable segments byte-equal to the originals. -/
def viewOf : FieldVal → FieldView
  | .fixedScalar _ v => .scalarV v
  | .fixedArray _ vs => .arrV vs
  | .var1Bytes bs => .bytesV bs
  | .var1Fixed _ vs => .fixedSeqV vs
  | .var2Bytes ss => .bytesSeqV ss
  | .var2Fixed _ ss => .fixedSeqSeqV ss

/-- Well-formedness of a field value as a Rust value: element widths are
positive and every stored number fits its byte width. -/
def wfField : FieldVal → Bool
  | .fixedScalar w v => 1 ≤ w && v < 256 ^ w
  | .fixedArray w vs => 1 ≤ w && vs.all (· < 256 ^ w)
  | .var1Bytes bs => bs.all (· < 256)
  | .var1Fixed w vs => 1 ≤ w && vs.all (· < 256 ^ w)
  | .var2Bytes ss => ss.all (·.all (· < 256))
  | .var2Fixed w ss => 1 ≤ w && ss.all (·.all (· < 256 ^ w))

/-! ## Derivation-time field classification (`src/macros/src/common.rs`) -/

/-- `VarKind` (`src/macros/src/common.rs` lines 108-113); the source calls
the non-variable constructor `None`, renamed `fixed` here. `field_var_kind`
classifies a type as `Var1` for `Vec<_>`, `Var2` for `Vec<Vec<_>>` and
`None` otherwise; a shape is the list of kinds of the declared fields. -/
inductive VarKind where
  | fixed
  | var1
  | var2
deriving DecidableEq, Repr

/-- The indices of variable (var1 or var2) fields, in declaration order
(`var_field_indices` in `collect_fields`, lines 53-65). -/
def varFieldIndices (ks : List VarKind) : List Nat :=
  (List.range ks.length).filter (fun i => ks.getD i .fixed ≠ .fixed)

/-- The indices of var2 fields, in declaration order (`var2_indices`). -/
def var2Indices (ks : List VarKind) : List Nat :=
  (List.range ks.length).filter (fun i => ks.getD i .fixed = .var2)

/-- `last_var_index` (`collect_fields` lines 67-75): the last variable
field's index, or the last field's index when no field is variable, or
nothing for an empty record. -/
def lastVarIndex (ks : List VarKind) : Option Nat :=
  if (varFieldIndices ks).isEmpty then
    if ks.isEmpty then none else some (ks.length - 1)
  else (varFieldIndices ks).getLast?

/-- The placement check of `collect_fields` (lines 77-86): the derivation
succeeds iff every var2 field's index equals `last_var_index`. -/
def collectFieldsAccepts (ks : List VarKind) : Bool :=
  match lastVarIndex ks with
  | some last => (var2Indices ks).all (fun i => i = last)
  | none => true

/-! ## The claimed malformedness conditions for decoder construction -/

/-- `total_len` as read (little-endian) from a buffer's header. -/
def headerTotalLen (buf : List Nat) : Nat := readU32LE buf 0

/-- `var_index_offset` as read (little-endian) from a buffer's header. -/
def headerVarIdx (buf : List Nat) : Nat := readU32LE buf 4

/-- The `data_offset` of a buffer when it is determined: equal to
`var_index_offset` for an index-free payload, otherwise the first VarIndex
entry — which exists only if it lies inside the buffer (spec section 4.5,
step 4). -/
def dataOffsetOpt (buf : List Nat) : Option Nat :=
  if headerTotalLen buf = headerVarIdx buf then some (headerVarIdx buf)
  else if headerVarIdx buf + 4 > buf.length then none
  else some (readU32LE buf (headerVarIdx buf))

/-- The malformedness conditions exactly as the claim lists them: fewer
than 8 bytes; `total_len` beyond the buffer; `var_index_offset < 8`;
`var_index_offset > total_len`; `data_offset` outside
`[var_index_offset, total_len]`; index stride not a multiple of 4; or data
present with zero VarIndex entries. -/
def malformedListed (buf : List Nat) : Bool :=
  buf.length < 8 ||
  headerTotalLen buf > buf.length ||
  headerVarIdx buf < 8 ||
  headerVarIdx buf > headerTotalLen buf ||
  (match dataOffsetOpt buf with
   | some doff =>
      doff < headerVarIdx buf ||
      doff > headerTotalLen buf ||
      (doff - headerVarIdx buf) % 4 ≠ 0 ||
      (headerTotalLen buf > headerVarIdx buf && (doff - headerVarIdx buf) / 4 = 0)
   | none => false)

/-- The amended malformedness conditions: the claim's list plus the one
case it misses — a payload that is not index-free whose first VarIndex
entry does not fit inside the buffer, so `data_offset` cannot be read. -/
def malformedAmended (buf : List Nat) : Bool :=
  malformedListed buf ||
  (¬ (buf.length < 8) && headerTotalLen buf ≠ headerVarIdx buf &&
    headerVarIdx buf + 4 > buf.length)

/-! ## The canonical payload produced by `finalize` -/

/-- Absolute segment offsets from `base` for the given segment lengths
(the running accumulator of the `finalize` entry loop). -/
def offsetsFromL : Nat → List Nat → List Nat
  | _, [] => []
  | base, l :: ls => base :: offsetsFromL (base + l) ls

/-- Total byte length of a list of segments. -/
def sumLen (segs : List (List Nat)) : Nat := (segs.map List.length).sum

/-- `total_len` of the payload for fixed region `F` and data segments `segs`. -/
def canonTotal (F : List Nat) (segs : List (List Nat)) : Nat :=
  8 + F.length + 4 * segs.length + sumLen segs

/-- `var_index_offset` of the payload for fixed region `F`. -/
def canonV (F : List Nat) : Nat := 8 + F.length

/-- `data_offset` of the payload for fixed region `F` and segments `segs`. -/
def canonDS (F : List Nat) (segs : List (List Nat)) : Nat :=
  8 + F.length + 4 * segs.length

/-- The little-endian payload with fixed region `F` and data segments
`segs`: header, fixed region, VarIndex entries, data region. -/
def canonBuf (F : List Nat) (segs : List (List Nat)) : List Nat :=
  leBytes 4 (canonTotal F segs) ++ leBytes 4 (canonV F) ++ F ++
    ((offsetsFromL (canonDS F segs) (segs.map List.length)).map (leBytes 4)).flatten ++
    segs.flatten

/-- The decoder over `canonBuf F segs` with cursors `c` (fixed) and `k`
(VarIndex). -/
def canonDecoder (F : List Nat) (segs : List (List Nat)) (c k : Nat) : Decoder :=
  { buf := canonBuf F segs, total_len := canonTotal F segs,
    var_idx_offset := canonV F, data_offset := canonDS F segs,
    fixed_cursor := c, var_cursor := k, endian := .little }

/-- The bytes a field contributes to the fixed region. -/
def fFix (endian : Endian) : FieldVal → List Nat
  | .fixedScalar w v => pushFixedData endian w v
  | .fixedArray w vs => (vs.map (pushFixedData endian w)).flatten
  | _ => []

/-- The data segments a field contributes (one per var1 field, one per
inner vector of a var2 field). -/
def fSegs (endian : Endian) : FieldVal → List (List Nat)
  | .var1Bytes bs => [(bs.map (pushFixedData endian 1)).flatten]
  | .var1Fixed w vs => [(vs.map (pushFixedData endian w)).flatten]
  | .var2Bytes ss => ss.map (fun s => (s.map (pushFixedData endian 1)).flatten)
  | .var2Fixed w ss => ss.map (fun s => (s.map (pushFixedData endian w)).flatten)
  | _ => []

/-- The whole fixed region of a record value. -/
def fFixAll (endian : Endian) (fs : List FieldVal) : List Nat :=
  (fs.map (fFix endian)).flatten

/-- All data segments of a record value, in order. -/
def fSegsAll (endian : Endian) (fs : List FieldVal) : List (List Nat) :=
  (fs.map (fSegs endian)).flatten

/-- Scenario F's minimal buffer `[08 00 00 00 08 00 00 00]`. -/
def minimalBuf : List Nat := [8, 0, 0, 0, 8, 0, 0, 0]

/-- The decoder state produced from `minimalBuf`:
`total_len = var_idx_offset = data_offset = 8`, cursors at 0. -/
def minimalDecoder : Decoder :=
  { buf := minimalBuf, total_len := 8, var_idx_offset := 8, data_offset := 8,
    fixed_cursor := 0, var_cursor := 0, endian := .little }

/-- A decoder state with one VarIndex entry whose value (0) lies below
`data_offset`, so the entry fails `next_var`'s bounds validation. -/
def badEntryDecoder : Decoder :=
  { buf := [16, 0, 0, 0, 8, 0, 0, 0, 0, 0, 0, 0, 1, 2, 3, 4],
    total_len := 16, var_idx_offset := 8, data_offset := 12,
    fixed_cursor := 0, var_cursor := 0, endian := .little }

/-! ## Basic length lemmas -/

theorem leBytes_length (w v : Nat) : (leBytes w v).length = w := by
  induction w generalizing v with
  | zero => rfl
  | succ w ih => simp [leBytes, ih]

theorem write_u32_endian_length (hostBig : Bool) (endian : Endian) (n : Nat) :
    (write_u32_endian hostBig endian n).length = 4 := by
  cases endian <;> simp [write_u32_endian, leBytes_length]
  split <;> simp [leBytes_length]

theorem writeEntries_ok_length (hostBig : Bool) (endian : Endian) :
    ∀ (ls : List Nat) (cur : Nat) (entries : List Nat),
    writeEntries hostBig endian cur ls = .ok entries → entries.length = 4 * ls.length := by
  intro ls
  induction ls with
  | nil =>
    intro _ entries h
    simp [writeEntries] at h
    simp [h]
  | cons l ls ih =>
    intro cur entries h
    simp only [writeEntries] at h
    split at h
    · cases hrec : writeEntries hostBig endian (cur + l) ls with
      | ok rest =>
        rw [hrec] at h
        cases h
        have := ih (cur + l) rest hrec
        simp [write_u32_endian_length, this]
        ring
      | error er => rw [hrec] at h; cases h
    · cases h

/-! ## C9 helpers: the post-state of each cursor read -/

theorem nextFixedBytes_snd (d : Decoder) (len : Nat) :
    (d.nextFixedBytes len).2 = d ∨
    (d.nextFixedBytes len).2 = { d with fixed_cursor := d.fixed_cursor + len } := by
  unfold Decoder.nextFixedBytes
  repeat' split
  all_goals simp

theorem nextVarIndex_snd (d : Decoder) :
    (d.nextVarIndex).2 = d ∨
    (d.nextVarIndex).2 = { d with var_cursor := d.var_cursor + 1 } := by
  unfold Decoder.nextVarIndex
  split <;> simp

theorem nextVar_snd (d : Decoder) : (d.nextVar).2 = (d.nextVarIndex).2 := by
  unfold Decoder.nextVar
  repeat' split
  all_goals simp_all

theorem nextFixedBytes_err_pair (d : Decoder) (len : Nat) :
    (∃ bs, (d.nextFixedBytes len).1 = .ok bs) ∨
    d.nextFixedBytes len = (.error .invalidLength, d) := by
  unfold Decoder.nextFixedBytes
  repeat' split
  all_goals simp

/-! ## Claim theorems (first batch) -/

/-- **C2**: refuted — `finalize` writes the two header integers with the
configured endian (`write_u32_endian(out, total_len, endian)`), not fixed
little-endian: the empty payload finalized under `Big` has header bytes
`[0,0,0,8, 0,0,0,8]`, differing from the `Little` output
`[8,0,0,0, 8,0,0,0]`, and the decoder (which always reads the header
little-endian) rejects it. -/
theorem finalize_header_uses_config_endian :
    Encoder.finalize false ⟨.big, [], [], []⟩ [] = .ok [0, 0, 0, 8, 0, 0, 0, 8] ∧
    Encoder.finalize false ⟨.little, [], [], []⟩ [] = .ok [8, 0, 0, 0, 8, 0, 0, 0] ∧
    Decoder.new [0, 0, 0, 8, 0, 0, 0, 8] = .error .invalidLength := by
  refine ⟨by decide, by decide, by decide⟩

/-- **C6**: a var2 value encoded with `IS_LAST_VAR = false` traps (models
as `none`) before touching the encoder state, and the `Vec<Vec<_>>`
`decode_field` impls with `IS_LAST_VAR = false` return the invalid-length
error with the decoder state unchanged (no segment consumed). -/
theorem var2_nonlast_flag_enforced :
    (∀ ss e, encodeField false (.var2Bytes ss) e = none) ∧
    (∀ w ss e, encodeField false (.var2Fixed w ss) e = none) ∧
    (∀ d, decodeField false .bytesSeqTy d = (.error .invalidLength, d)) ∧
    (∀ w d, decodeField false (.fixedSeqSeqTy w) d = (.error .invalidLength, d)) :=
  ⟨fun _ _ => rfl, fun _ _ _ => rfl, fun _ => rfl, fun _ _ => rfl⟩

/-- **C7**: the 8-byte buffer `[08 00 00 00 08 00 00 00]` constructs a
decoder with `total_len = var_idx_offset = data_offset = 8` and zero
variable entries; every `next_fixed_bytes` read of a positive length and
every `next_var` call on it fail with the invalid-length error. -/
theorem minimal_payload_decodes :
    Decoder.new minimalBuf = .ok minimalDecoder ∧
    minimalDecoder.varCount = 0 ∧
    (∀ n, 0 < n → (minimalDecoder.nextFixedBytes n).1 = .error .invalidLength) ∧
    (minimalDecoder.nextVar).1 = .error .invalidLength := by
  refine ⟨by decide, by decide, ?_, by decide⟩
  intro n hn
  unfold Decoder.nextFixedBytes
  simp [minimalDecoder, minimalBuf, hn]

/-- Witness for `minimal_payload_decodes`: the positive-length hypothesis
discharged at `n = 1`. -/
theorem minimal_payload_decodes_witness :
    0 < 1 ∧ (minimalDecoder.nextFixedBytes 1).1 = .error .invalidLength :=
  ⟨Nat.one_pos, minimal_payload_decodes.2.2.1 1 Nat.one_pos⟩

/-- **C8**: error atomicity asymmetry — `next_fixed_bytes` leaves the
decoder completely unchanged whenever it returns an error, while `next_var`
invoked with `var_cursor < var_count` advances `var_cursor` by one even
when it returns the invalid-length error. -/
theorem cursor_error_atomicity :
    (∀ (d : Decoder) (len : Nat) (er : CodecError),
      (d.nextFixedBytes len).1 = .error er → (d.nextFixedBytes len).2 = d) ∧
    (∀ (d : Decoder) (er : CodecError), d.var_cursor < d.varCount →
      (d.nextVar).1 = .error er → (d.nextVar).2.var_cursor = d.var_cursor + 1) := by
  constructor
  · intro d len er h
    rcases nextFixedBytes_err_pair d len with ⟨bs, hok⟩ | hpair
    · rw [h] at hok; cases hok
    · rw [hpair]
  · intro d er hlt _
    rw [nextVar_snd]
    unfold Decoder.nextVarIndex
    rw [if_neg (by omega)]

/-- Witness for `cursor_error_atomicity`: a failing fixed read on the
minimal decoder leaves it unchanged, and a failing `next_var` on a decoder
whose current entry violates the bounds check still advances the cursor. -/
theorem cursor_error_atomicity_witness :
    ((minimalDecoder.nextFixedBytes 5).1 = .error .invalidLength ∧
      (minimalDecoder.nextFixedBytes 5).2 = minimalDecoder) ∧
    (badEntryDecoder.var_cursor < badEntryDecoder.varCount ∧
      (badEntryDecoder.nextVar).1 = .error .invalidLength ∧
      (badEntryDecoder.nextVar).2.var_cursor = badEntryDecoder.var_cursor + 1) :=
  ⟨⟨by decide, cursor_error_atomicity.1 minimalDecoder 5 .invalidLength (by decide)⟩,
   ⟨by decide, by decide,
    cursor_error_atomicity.2 badEntryDecoder .invalidLength (by decide) (by decide)⟩⟩

/-- **C9**: frame property — `next_fixed_bytes` can change only
`fixed_cursor`, and `next_var` only `var_cursor`; buffer, parsed header
fields, endian, and the other cursor are untouched whether the call
succeeds or fails. -/
theorem cursor_frame :
    (∀ (d : Decoder) (len : Nat),
      (d.nextFixedBytes len).2.buf = d.buf ∧
      (d.nextFixedBytes len).2.total_len = d.total_len ∧
      (d.nextFixedBytes len).2.var_idx_offset = d.var_idx_offset ∧
      (d.nextFixedBytes len).2.data_offset = d.data_offset ∧
      (d.nextFixedBytes len).2.endian = d.endian ∧
      (d.nextFixedBytes len).2.var_cursor = d.var_cursor) ∧
    (∀ d : Decoder,
      (d.nextVar).2.buf = d.buf ∧
      (d.nextVar).2.total_len = d.total_len ∧
      (d.nextVar).2.var_idx_offset = d.var_idx_offset ∧
      (d.nextVar).2.data_offset = d.data_offset ∧
      (d.nextVar).2.endian = d.endian ∧
      (d.nextVar).2.fixed_cursor = d.fixed_cursor) := by
  constructor
  · intro d len
    rcases nextFixedBytes_snd d len with h | h <;> simp [h]
  · intro d
    rw [nextVar_snd]
    rcases nextVarIndex_snd d with h | h <;> simp [h]

/-- **C10**: a successful `finalize` appends to `out` without modifying its
preexisting bytes, and appends exactly
`8 + len(fixed) + 4·len(var_length) + len(data)` bytes — the value also
written as `total_len` in the first four appended bytes. -/
theorem finalize_append_only (hostBig : Bool) (e : Encoder) (out out' : List Nat)
    (h : e.finalize hostBig out = .ok out') :
    ∃ app, out' = out ++ app ∧
      app.length = 8 + e.fixed.length + 4 * e.var_length.length + e.data.length ∧
      app.take 4 = write_u32_endian hostBig e.endian app.length := by
  unfold Encoder.finalize at h
  split_ifs at h
  cases hw : writeEntries hostBig e.endian (8 + e.fixed.length + e.var_length.length * 4)
      e.var_length with
  | error er => rw [hw] at h; cases h
  | ok entries =>
    rw [hw] at h
    cases h
    refine ⟨write_u32_endian hostBig e.endian
        (8 + e.fixed.length + e.var_length.length * 4 + e.data.length) ++
        (write_u32_endian hostBig e.endian (8 + e.fixed.length) ++
          (e.fixed ++ (entries ++ e.data))), by simp, ?_⟩
    have hlen : (write_u32_endian hostBig e.endian
          (8 + e.fixed.length + e.var_length.length * 4 + e.data.length) ++
        (write_u32_endian hostBig e.endian (8 + e.fixed.length) ++
          (e.fixed ++ (entries ++ e.data)))).length =
        8 + e.fixed.length + 4 * e.var_length.length + e.data.length := by
      simp [write_u32_endian_length, writeEntries_ok_length hostBig e.endian _ _ _ hw]
      ring
    refine ⟨hlen, ?_⟩
    rw [hlen]
    have h4 : (write_u32_endian hostBig e.endian
        (8 + e.fixed.length + e.var_length.length * 4 + e.data.length)).length = 4 :=
      write_u32_endian_length _ _ _
    calc (write_u32_endian hostBig e.endian
            (8 + e.fixed.length + e.var_length.length * 4 + e.data.length) ++
          (write_u32_endian hostBig e.endian (8 + e.fixed.length) ++
            (e.fixed ++ (entries ++ e.data)))).take 4
        = (write_u32_endian hostBig e.endian
            (8 + e.fixed.length + e.var_length.length * 4 + e.data.length) ++
          (write_u32_endian hostBig e.endian (8 + e.fixed.length) ++
            (e.fixed ++ (entries ++ e.data)))).take
            (write_u32_endian hostBig e.endian
              (8 + e.fixed.length + e.var_length.length * 4 + e.data.length)).length := by
          rw [h4]
      _ = write_u32_endian hostBig e.endian
            (8 + e.fixed.length + e.var_length.length * 4 + e.data.length) :=
          List.take_left _ _
      _ = write_u32_endian hostBig e.endian
            (8 + e.fixed.length + 4 * e.var_length.length + e.data.length) := by
          congr 1
          ring

/-- Witness for `finalize_append_only`: a concrete successful finalize into
a non-empty output vector. -/
theorem finalize_append_only_witness :
    Encoder.finalize false ⟨.little, [170], [2], [1, 2]⟩ [9, 9] =
      .ok [9, 9, 15, 0, 0, 0, 9, 0, 0, 0, 170, 13, 0, 0, 0, 1, 2] ∧
    ∃ app, [9, 9, 15, 0, 0, 0, 9, 0, 0, 0, 170, 13, 0, 0, 0, 1, 2] = [9, 9] ++ app ∧
      app.length = 8 + (Encoder.mk .little [170] [2] [1, 2]).fixed.length +
        4 * (Encoder.mk .little [170] [2] [1, 2]).var_length.length +
        (Encoder.mk .little [170] [2] [1, 2]).data.length ∧
      app.take 4 =
        write_u32_endian false (Encoder.mk .little [170] [2] [1, 2]).endian app.length :=
  ⟨by decide, finalize_append_only false ⟨.little, [170], [2], [1, 2]⟩ [9, 9] _ (by decide)⟩

/-! ## C3: the derivation placement check -/

theorem mem_varFieldIndices {ks : List VarKind} {i : Nat} :
    i ∈ varFieldIndices ks ↔ i < ks.length ∧ ks.getD i .fixed ≠ .fixed := by
  simp [varFieldIndices, List.mem_filter, List.mem_range]

theorem mem_var2Indices {ks : List VarKind} {i : Nat} :
    i ∈ var2Indices ks ↔ i < ks.length ∧ ks.getD i .fixed = .var2 := by
  simp [var2Indices, List.mem_filter, List.mem_range]

/-- The last element of a filtered range is the greatest index satisfying
the predicate. -/
theorem getLast_filter_range (p : Nat → Bool) :
    ∀ (n i : Nat), ((List.range n).filter p).getLast? = some i ↔
      (i < n ∧ p i = true ∧ ∀ j, i < j → j < n → p j = false) := by
  intro n
  induction n with
  | zero => intro i; simp
  | succ n ih =>
    intro i
    rw [List.range_succ, List.filter_append]
    cases hn : p n with
    | true =>
      have hfil : List.filter p [n] = [n] := by simp [hn]
      rw [hfil, List.getLast?_concat]
      constructor
      · rintro h
        rw [Option.some.injEq] at h
        refine ⟨by omega, ?_, fun j hj hj' => by omega⟩
        rw [← h]
        exact hn
      · rintro ⟨hi, hpi, hmax⟩
        rcases Nat.lt_succ_iff_lt_or_eq.mp hi with hlt | heq
        · have := hmax n hlt (Nat.lt_succ_self n)
          rw [hn] at this
          cases this
        · rw [heq]
    | false =>
      have hfil : List.filter p [n] = [] := by simp [hn]
      rw [hfil, List.append_nil, ih]
      constructor
      · rintro ⟨hi, hpi, hmax⟩
        refine ⟨by omega, hpi, fun j hj hj' => ?_⟩
        rcases Nat.lt_succ_iff_lt_or_eq.mp hj' with h | h
        · exact hmax j hj h
        · rw [h]; exact hn
      · rintro ⟨hi, hpi, hmax⟩
        have hin : i ≠ n := by
          intro h
          rw [h, hn] at hpi
          cases hpi
        refine ⟨by omega, hpi, fun j hj hj' => hmax j hj (by omega)⟩

/-- **C3** counterexample: the shape
`{payload: Vec<u8>, nested: Vec<Vec<u16>>, tail: u32}` — kinds
`[var1, var2, fixed]` — is *accepted* by `collect_fields`, because its var2
field is the last *variable* field even though a fixed field follows it;
the claim says this shape must be rejected. -/
theorem var2_placement_counterexample :
    collectFieldsAccepts [.var1, .var2, .fixed] = true := by decide

/-- **C3** amended: `collect_fields` accepts a shape iff no var2 field is
followed by a later variable field (trailing fixed fields are allowed);
in particular a var2 followed by a var1 is still rejected. -/
theorem var2_placement_amended :
    (∀ ks : List VarKind,
      collectFieldsAccepts ks = true ↔
        (∀ i j, i < j → j < ks.length → ks.getD i .fixed = .var2 →
          ks.getD j .fixed = .fixed)) ∧
    collectFieldsAccepts [.var2, .var1] = false := by
  refine ⟨?_, by decide⟩
  intro ks
  constructor
  · intro hacc i j hij hj hvar2
    by_contra hne
    have hi_mem : i ∈ var2Indices ks := mem_var2Indices.mpr ⟨by omega, hvar2⟩
    have hi_vf : i ∈ varFieldIndices ks :=
      mem_varFieldIndices.mpr ⟨by omega, by rw [hvar2]; intro h; cases h⟩
    have hvf_ne : ¬ (varFieldIndices ks).isEmpty := by
      simpa [List.isEmpty_iff] using List.ne_nil_of_mem hi_vf
    unfold collectFieldsAccepts at hacc
    cases hli : lastVarIndex ks with
    | none =>
      unfold lastVarIndex at hli
      rw [if_neg hvf_ne] at hli
      rcases hvf : varFieldIndices ks with _ | ⟨a, l⟩
      · rw [hvf] at hi_vf; cases hi_vf
      · rw [hvf] at hli
        have h2 : ((a :: l).getLast?).isSome := List.getLast?_isSome.mpr (by simp)
        rw [hli] at h2
        cases h2
    | some last =>
      rw [hli] at hacc
      have hlast_i : i = last := by
        have := List.all_eq_true.mp hacc i hi_mem
        simpa using this
      unfold lastVarIndex at hli
      rw [if_neg hvf_ne] at hli
      have hchar := (getLast_filter_range (fun x => decide (ks.getD x .fixed ≠ .fixed))
        ks.length last).mp hli
      have hj_none := hchar.2.2 j (by omega) hj
      simp only [decide_eq_false_iff_not, not_not] at hj_none
      exact hne hj_none
  · intro hforall
    unfold collectFieldsAccepts
    cases hli : lastVarIndex ks with
    | none => rfl
    | some last =>
      rw [List.all_eq_true]
      intro x hx
      obtain ⟨hxlen, hxvar2⟩ := mem_var2Indices.mp hx
      have hx_vf : x ∈ varFieldIndices ks :=
        mem_varFieldIndices.mpr ⟨hxlen, by rw [hxvar2]; intro h; cases h⟩
      -- `lastVarIndex` is the filtered range's last element here
      have hvf_ne : ¬ (varFieldIndices ks).isEmpty := by
        simpa [List.isEmpty_iff] using List.ne_nil_of_mem hx_vf
      have hli' : (varFieldIndices ks).getLast? = some last := by
        unfold lastVarIndex at hli
        rw [if_neg hvf_ne] at hli
        exact hli
      have hchar := (getLast_filter_range (fun x => decide (ks.getD x .fixed ≠ .fixed))
        ks.length last).mp hli'
      simp only [decide_eq_true_eq] at hchar
      have : x = last := by
        by_contra hxl
        rcases Nat.lt_or_ge x last with h | h
        · have := hforall x last h (by omega) hxvar2
          exact hchar.2.1 this
        · have hxgt : last < x := by omega
          have hfalse := hchar.2.2 x (by omega) hxlen
          simp only [decide_eq_false_iff_not, not_not] at hfalse
          rw [hxvar2] at hfalse
          cases hfalse
      simpa using this

/-! ## C4: decoder construction vs. the claimed malformedness conditions -/

/-- **C4** counterexample: the 10-byte buffer
`[0A 00 00 00 09 00 00 00 00 00]` (`total_len = 10`, `var_index_offset = 9`)
passes every malformedness check the claim lists — its `data_offset` cannot
even be read, because the first VarIndex entry at offset 9 would end at
offset 13, past the buffer — yet decoder construction fails with the
invalid-length error. -/
theorem decoder_malformed_counterexample :
    malformedListed [10, 0, 0, 0, 9, 0, 0, 0, 0, 0] = false ∧
    Decoder.new [10, 0, 0, 0, 9, 0, 0, 0, 0, 0] = .error .invalidLength :=
  ⟨by decide, by decide⟩

/-- **C4** amended: decoder construction (under any endian policy) fails
with the invalid-length error exactly on the buffers that are malformed in
one of the claim's listed ways *or* whose first VarIndex entry does not fit
inside the buffer (`total_len ≠ var_index_offset` and
`var_index_offset + 4 > len(buffer)`), and succeeds on all others. -/
theorem decoder_malformed_amended :
    ∀ (buf : List Nat) (endian : Endian),
      (Decoder.withEndian buf endian = .error .invalidLength ↔
        malformedAmended buf = true) ∧
      ((∃ d, Decoder.withEndian buf endian = .ok d) ↔ malformedAmended buf = false) := by
  intro buf endian
  have hmain : (Decoder.withEndian buf endian = .error .invalidLength ↔
      malformedAmended buf = true) ∧
      ((∃ d, Decoder.withEndian buf endian = .ok d) ↔ ¬ malformedAmended buf = true) := by
    unfold Decoder.withEndian malformedAmended malformedListed dataOffsetOpt
      headerTotalLen headerVarIdx resolveDataOffset
    by_cases h1 : buf.length < 8
    · simp [h1]
    · simp only [h1, if_false]
      by_cases h2 : readU32LE buf 0 > buf.length
      · simp [h2]
      · simp only [h2, if_false]
        by_cases h3 : readU32LE buf 4 < 8
        · simp [h3]
        · simp only [h3, if_false]
          by_cases h4 : readU32LE buf 4 > readU32LE buf 0
          · simp [h4]
          · simp only [h4, if_false]
            by_cases hEq : readU32LE buf 0 = readU32LE buf 4
            · simp [hEq]
            · simp only [hEq, if_false]
              by_cases hRead : readU32LE buf 4 + 4 > buf.length
              · simp [hRead, h1, h2, h3, h4, hEq]
              · simp only [hRead, if_false]
                by_cases h5 : readU32LE buf (readU32LE buf 4) < readU32LE buf 4
                · simp [h5]
                · simp only [h5, if_false]
                  by_cases h6 : readU32LE buf (readU32LE buf 4) > readU32LE buf 0
                  · simp [h6]
                  · simp only [h6, if_false]
                    by_cases h7 : readU32LE buf 0 > readU32LE buf 4 ∧
                        readU32LE buf (readU32LE buf 4) = readU32LE buf 4
                    · simp only [h7, if_true]
                      simp [h1, h2, h3, h4, hEq, hRead, h5, h6]
                      try omega
                    · simp only [h7, if_false]
                      by_cases h8 : (readU32LE buf (readU32LE buf 4) - readU32LE buf 4) % 4 ≠ 0
                      · simp [h8, h1, h2, h3, h4, hEq, hRead, h5, h6]
                      · simp [h8, h1, h2, h3, h4, hEq, hRead, h5, h6]
                        omega
  refine ⟨hmain.1, ?_⟩
  rw [hmain.2]
  cases malformedAmended buf <;> simp

/-! ## Byte-string arithmetic lemmas -/

theorem readLE_leBytes {w v : Nat} (h : v < 256 ^ w) : readLE (leBytes w v) = v := by
  induction w generalizing v with
  | zero =>
    simp [Nat.pow_zero] at h
    simp [leBytes, readLE, h]
  | succ w ih =>
    have hdiv : v / 256 < 256 ^ w := by
      rw [Nat.div_lt_iff_lt_mul (by norm_num)]
      calc v < 256 ^ (w + 1) := h
        _ = 256 ^ w * 256 := by rw [Nat.pow_succ]
    simp only [leBytes, readLE, List.foldr_cons]
    have := ih hdiv
    simp only [readLE] at this
    rw [this]
    omega

theorem pushFixedData_length (endian : Endian) (w v : Nat) :
    (pushFixedData endian w v).length = w := by
  cases endian <;> simp [pushFixedData, leBytes_length]

theorem readFixed_pushFixedData (endian : Endian) {w v : Nat} (h : v < 256 ^ w) :
    readFixed endian (pushFixedData endian w v) = v := by
  cases endian <;>
    simp [readFixed, pushFixedData, List.reverse_reverse, readLE_leBytes h]

theorem readU32LE_shift (A B : List Nat) (i : Nat) :
    readU32LE (A ++ B) (A.length + i) = readU32LE B i := by
  unfold readU32LE
  rw [List.drop_append i]

/-- Reading a `u32` just past a prefix retrieves the value written there. -/
theorem readU32LE_append (A B : List Nat) {n : Nat} (h : n < u32mod) :
    readU32LE (A ++ (leBytes 4 n ++ B)) A.length = n := by
  rw [show A.length = A.length + 0 from rfl, readU32LE_shift]
  unfold readU32LE
  rw [List.drop_zero, List.take_append_of_le_length (by simp [leBytes_length]),
    List.take_of_length_le (by simp [leBytes_length])]
  exact readLE_leBytes (by simpa [u32mod] using h)

/-! ## Slice lemmas -/

theorem sliceL_shift (P X : List Nat) (a b : Nat) :
    sliceL (P ++ X) (P.length + a) (P.length + b) = sliceL X a b := by
  unfold sliceL
  rw [List.drop_append a]
  congr 1
  omega

theorem sliceL_front (X R : List Nat) (a b : Nat) (h : b ≤ X.length) :
    sliceL (X ++ R) a b = sliceL X a b := by
  unfold sliceL
  rcases Nat.le_total a b with hab | hab
  · rw [List.drop_append_of_le_length (by omega)]
    rw [List.take_append_of_le_length (by simp; omega)]
  · have : b - a = 0 := by omega
    simp [this]

/-- Slicing out exactly the middle block of a three-part concatenation. -/
theorem sliceL_exact (A B C : List Nat) :
    sliceL (A ++ (B ++ C)) A.length (A.length + B.length) = B := by
  rw [show A ++ (B ++ C) = (A ++ B) ++ C from (List.append_assoc A B C).symm]
  rw [show A.length + B.length = (A ++ B).length by simp]
  rw [sliceL_front _ _ _ _ (Nat.le_refl _)]
  unfold sliceL
  rw [show (A ++ B).length - A.length = B.length by simp]
  rw [List.drop_left, List.take_length]

/-! ## Offset-list lemmas -/

theorem offsetsFromL_length (base : Nat) (ls : List Nat) :
    (offsetsFromL base ls).length = ls.length := by
  induction ls generalizing base with
  | nil => rfl
  | cons l ls ih => simp [offsetsFromL, ih]

theorem offsetsFromL_getD (base : Nat) :
    ∀ (ls : List Nat) (k : Nat), k < ls.length →
      (offsetsFromL base ls).getD k 0 = base + (ls.take k).sum := by
  intro ls
  induction ls generalizing base with
  | nil => intro k hk; cases hk
  | cons l ls ih =>
    intro k hk
    cases k with
    | zero => simp [offsetsFromL]
    | succ k =>
      simp only [offsetsFromL, List.getD_cons_succ, List.take_succ_cons, List.sum_cons]
      rw [ih (base + l) k (by simpa using hk)]
      omega

theorem offsetsFromL_mem_bounds (base : Nat) :
    ∀ (ls : List Nat), ∀ o ∈ offsetsFromL base ls, base ≤ o ∧ o ≤ base + ls.sum := by
  intro ls
  induction ls generalizing base with
  | nil => intro o ho; cases ho
  | cons l ls ih =>
    intro o ho
    simp only [offsetsFromL, List.mem_cons] at ho
    rcases ho with rfl | ho
    · simp
    · have := ih (base + l) o ho
      simp only [List.sum_cons]
      omega

theorem offsetsFromL_chain (base : Nat) :
    ∀ ls : List Nat, List.Chain' (· ≤ ·) (offsetsFromL base ls) := by
  intro ls
  induction ls generalizing base with
  | nil => exact List.chain'_nil
  | cons l ls ih =>
    cases ls with
    | nil => simp [offsetsFromL]
    | cons l' ls' =>
      simp only [offsetsFromL]
      rw [List.chain'_cons]
      exact ⟨by omega, by simpa [offsetsFromL] using ih (base + l)⟩

/-- Byte length of a flattened list of fixed-width encodings. -/
theorem flatten_map_length {α : Type} (w : Nat) (f : α → List Nat)
    (hf : ∀ n, (f n).length = w) (ls : List α) :
    ((ls.map f).flatten).length = w * ls.length := by
  induction ls with
  | nil => simp
  | cons l ls ih => simp [ih, hf]; ring

/-- Byte length of a flattened list of `u32` encodings. -/
theorem flatten_map_u32_length (f : Nat → List Nat) (hf : ∀ n, (f n).length = 4)
    (ls : List Nat) : ((ls.map f).flatten).length = 4 * ls.length :=
  flatten_map_length 4 f hf ls

/-- Reading the `k`-th `u32` of a flattened entry table. -/
theorem readU32_flatten_entries :
    ∀ (offs : List Nat) (k : Nat) (D : List Nat), k < offs.length →
      (∀ o ∈ offs, o < u32mod) →
      readU32LE ((offs.map (leBytes 4)).flatten ++ D) (4 * k) = offs.getD k 0 := by
  intro offs
  induction offs with
  | nil => intro k D hk; cases hk
  | cons o offs ih =>
    intro k D hk hb
    cases k with
    | zero =>
      simp only [List.map_cons, List.flatten_cons, Nat.mul_zero, List.getD_cons_zero]
      rw [List.append_assoc]
      have := readU32LE_append [] ((offs.map (leBytes 4)).flatten ++ D)
        (n := o) (hb o (by simp))
      simpa using this
    | succ k =>
      simp only [List.map_cons, List.flatten_cons, List.getD_cons_succ]
      rw [List.append_assoc]
      have hshift : readU32LE (leBytes 4 o ++ ((offs.map (leBytes 4)).flatten ++ D))
          ((leBytes 4 o).length + 4 * k) = readU32LE ((offs.map (leBytes 4)).flatten ++ D)
          (4 * k) := readU32LE_shift _ _ _
      rw [show 4 * (k + 1) = (leBytes 4 o).length + 4 * k by simp [leBytes_length]; ring]
      rw [hshift]
      exact ih k D (by simpa using hk) (fun x hx => hb x (by simp [hx]))

/-- Sums of prefixes are bounded by the total sum. -/
theorem sum_take_le (l : List Nat) (k : Nat) : (l.take k).sum ≤ l.sum := by
  have : (l.take k).sum + (l.drop k).sum = l.sum := by
    rw [← List.sum_append, List.take_append_drop]
  omega

/-! ## `finalize` characterization -/

/-- When the running offsets stay within `u32`, the entry loop succeeds and
emits exactly the offset list. -/
theorem writeEntries_ok_eq (hostBig : Bool) (endian : Endian) :
    ∀ (ls : List Nat) (base : Nat), base + ls.sum ≤ u32max →
      writeEntries hostBig endian base ls =
        .ok ((offsetsFromL base ls).map (write_u32_endian hostBig endian)).flatten := by
  intro ls
  induction ls with
  | nil => intro base _; simp [writeEntries, offsetsFromL]
  | cons l ls ih =>
    intro base hb
    simp only [List.sum_cons] at hb
    unfold writeEntries
    rw [if_pos (by omega), ih (base + l) (by omega)]
    simp [offsetsFromL]

/-- Successful shape of `finalize` into an empty output: the four guards
pass and the payload is header, fixed region, offset entries, data. -/
theorem finalize_ok_eq (hostBig : Bool) (e : Encoder)
    (hsum : e.var_length.sum = e.data.length)
    (hfit : 8 + e.fixed.length + 4 * e.var_length.length + e.data.length ≤ u32max) :
    e.finalize hostBig [] = .ok
      (write_u32_endian hostBig e.endian
          (8 + e.fixed.length + e.var_length.length * 4 + e.data.length) ++
       write_u32_endian hostBig e.endian (8 + e.fixed.length) ++ e.fixed ++
       ((offsetsFromL (8 + e.fixed.length + e.var_length.length * 4) e.var_length).map
          (write_u32_endian hostBig e.endian)).flatten ++ e.data) := by
  unfold Encoder.finalize
  rw [if_neg (by omega), if_neg (by omega), if_neg (by omega), if_neg (by omega)]
  rw [writeEntries_ok_eq hostBig e.endian e.var_length
    (8 + e.fixed.length + e.var_length.length * 4) (by omega)]
  simp

/-- **C5**: for every encoder state reachable by the push operations (its
`var_length` entries sum to the data length), `finalize` into an empty
output succeeds when the total fits in `u32`, and the output consists of
the header (`total_len` = output length), the fixed region, the VarIndex
entries and the data, with `8 ≤ var_index_offset ≤ data_offset ≤ total_len`
and the entries non-decreasing and contained in `[data_offset, total_len]`. -/
theorem finalize_output_invariants (hostBig : Bool) (e : Encoder)
    (hsum : e.var_length.sum = e.data.length)
    (hfit : 8 + e.fixed.length + 4 * e.var_length.length + e.data.length ≤ u32max) :
    ∃ out, e.finalize hostBig [] = .ok out ∧
      out = write_u32_endian hostBig e.endian
          (8 + e.fixed.length + e.var_length.length * 4 + e.data.length) ++
        write_u32_endian hostBig e.endian (8 + e.fixed.length) ++ e.fixed ++
        ((offsetsFromL (8 + e.fixed.length + e.var_length.length * 4) e.var_length).map
          (write_u32_endian hostBig e.endian)).flatten ++ e.data ∧
      out.length = 8 + e.fixed.length + 4 * e.var_length.length + e.data.length ∧
      8 ≤ 8 + e.fixed.length ∧
      8 + e.fixed.length ≤ 8 + e.fixed.length + e.var_length.length * 4 ∧
      8 + e.fixed.length + e.var_length.length * 4 ≤ out.length ∧
      List.Chain' (· ≤ ·)
        (offsetsFromL (8 + e.fixed.length + e.var_length.length * 4) e.var_length) ∧
      ∀ o ∈ offsetsFromL (8 + e.fixed.length + e.var_length.length * 4) e.var_length,
        8 + e.fixed.length + e.var_length.length * 4 ≤ o ∧ o ≤ out.length := by
  have hlen : (write_u32_endian hostBig e.endian
          (8 + e.fixed.length + e.var_length.length * 4 + e.data.length) ++
        write_u32_endian hostBig e.endian (8 + e.fixed.length) ++ e.fixed ++
        ((offsetsFromL (8 + e.fixed.length + e.var_length.length * 4) e.var_length).map
          (write_u32_endian hostBig e.endian)).flatten ++ e.data).length =
      8 + e.fixed.length + 4 * e.var_length.length + e.data.length := by
    simp [write_u32_endian_length,
      flatten_map_u32_length (write_u32_endian hostBig e.endian)
        (write_u32_endian_length hostBig e.endian), offsetsFromL_length]
    ring
  refine ⟨_, finalize_ok_eq hostBig e hsum hfit, rfl, hlen, by omega, by omega, ?_, ?_, ?_⟩
  · rw [hlen]; omega
  · exact offsetsFromL_chain _ _
  · intro o ho
    have := offsetsFromL_mem_bounds (8 + e.fixed.length + e.var_length.length * 4)
      e.var_length o ho
    rw [hlen]
    omega

/-- Witness for `finalize_output_invariants` at a concrete reachable
encoder state. -/
theorem finalize_output_invariants_witness :
    ((Encoder.mk .little [170] [2] [1, 2]).var_length.sum =
        (Encoder.mk .little [170] [2] [1, 2]).data.length ∧
      8 + (Encoder.mk .little [170] [2] [1, 2]).fixed.length +
          4 * (Encoder.mk .little [170] [2] [1, 2]).var_length.length +
          (Encoder.mk .little [170] [2] [1, 2]).data.length ≤ u32max) ∧
    ∃ out, (Encoder.mk .little [170] [2] [1, 2]).finalize false [] = .ok out ∧
      out = write_u32_endian false .little (8 + 1 + 1 * 4 + 2) ++
        write_u32_endian false .little (8 + 1) ++ [170] ++
        ((offsetsFromL (8 + 1 + 1 * 4) [2]).map (write_u32_endian false .little)).flatten ++
        [1, 2] ∧
      out.length = 8 + 1 + 4 * 1 + 2 ∧ 8 ≤ 8 + 1 ∧ 8 + 1 ≤ 8 + 1 + 1 * 4 ∧
      8 + 1 + 1 * 4 ≤ out.length ∧
      List.Chain' (· ≤ ·) (offsetsFromL (8 + 1 + 1 * 4) [2]) ∧
      ∀ o ∈ offsetsFromL (8 + 1 + 1 * 4) [2], 8 + 1 + 1 * 4 ≤ o ∧ o ≤ out.length :=
  ⟨⟨by decide, by decide⟩,
    finalize_output_invariants false ⟨.little, [170], [2], [1, 2]⟩ (by decide) (by decide)⟩

/-! ## The canonical little-endian payload and its decoder -/

theorem canonBuf_length (F : List Nat) (segs : List (List Nat)) :
    (canonBuf F segs).length = canonTotal F segs := by
  simp [canonBuf, canonTotal, leBytes_length, sumLen,
    flatten_map_u32_length (leBytes 4) (leBytes_length 4), offsetsFromL_length,
    List.length_flatten]
  omega

theorem lt_u32mod_of_le_u32max {n : Nat} (h : n ≤ u32max) : n < u32mod := by
  simp only [u32max, u32mod] at *
  omega

theorem readU32LE_canonBuf_zero (F : List Nat) (segs : List (List Nat))
    (hFit : canonTotal F segs ≤ u32max) :
    readU32LE (canonBuf F segs) 0 = canonTotal F segs := by
  have hassoc : canonBuf F segs =
      [] ++ (leBytes 4 (canonTotal F segs) ++ (leBytes 4 (canonV F) ++ (F ++
        (((offsetsFromL (canonDS F segs) (segs.map List.length)).map (leBytes 4)).flatten ++
          segs.flatten)))) := by
    simp [canonBuf, List.append_assoc]
  rw [hassoc]
  have := readU32LE_append []
    (leBytes 4 (canonV F) ++ (F ++
      (((offsetsFromL (canonDS F segs) (segs.map List.length)).map (leBytes 4)).flatten ++
        segs.flatten)))
    (n := canonTotal F segs) (lt_u32mod_of_le_u32max hFit)
  simpa using this

theorem readU32LE_canonBuf_four (F : List Nat) (segs : List (List Nat))
    (hFit : canonTotal F segs ≤ u32max) :
    readU32LE (canonBuf F segs) 4 = canonV F := by
  have hassoc : canonBuf F segs =
      leBytes 4 (canonTotal F segs) ++ (leBytes 4 (canonV F) ++ (F ++
        (((offsetsFromL (canonDS F segs) (segs.map List.length)).map (leBytes 4)).flatten ++
          segs.flatten))) := by
    simp [canonBuf, List.append_assoc]
  have hVfit : canonV F < u32mod := by
    refine lt_u32mod_of_le_u32max (le_trans ?_ hFit)
    simp [canonV, canonTotal]
    omega
  rw [hassoc, show (4 : Nat) = (leBytes 4 (canonTotal F segs)).length by simp [leBytes_length]]
  exact readU32LE_append _ _ hVfit

theorem resolveDataOffset_canon (F : List Nat) (segs : List (List Nat))
    (hFit : canonTotal F segs ≤ u32max) :
    resolveDataOffset (canonBuf F segs) (canonTotal F segs) (canonV F) =
      .ok (canonDS F segs) := by
  cases segs with
  | nil =>
    unfold resolveDataOffset
    rw [if_pos (by simp [canonTotal, canonV, canonDS, sumLen])]
    simp [canonV, canonDS]
  | cons s rest =>
    have hTV : canonTotal F (s :: rest) ≠ canonV F := by
      simp [canonTotal, canonV, sumLen]
      omega
    unfold resolveDataOffset
    rw [if_neg hTV, if_neg (by rw [canonBuf_length]; simp [canonTotal, canonV, sumLen]; omega)]
    have hassoc : canonBuf F (s :: rest) =
        (leBytes 4 (canonTotal F (s :: rest)) ++ leBytes 4 (canonV F) ++ F) ++
          (leBytes 4 (canonDS F (s :: rest)) ++
            (((offsetsFromL (canonDS F (s :: rest) + s.length) (rest.map List.length)).map
                (leBytes 4)).flatten ++ (s :: rest).flatten)) := by
      simp [canonBuf, offsetsFromL, List.append_assoc]
    have hds : readU32LE (canonBuf F (s :: rest)) (canonV F) = canonDS F (s :: rest) := by
      rw [hassoc, show canonV F =
        (leBytes 4 (canonTotal F (s :: rest)) ++ leBytes 4 (canonV F) ++ F).length by
          simp [leBytes_length, canonV]
          try omega]
      refine readU32LE_append _ _ (lt_u32mod_of_le_u32max (le_trans ?_ hFit))
      simp [canonDS, canonTotal]
      try omega
    rw [hds]

theorem withEndian_canon (F : List Nat) (segs : List (List Nat))
    (hFit : canonTotal F segs ≤ u32max) :
    Decoder.withEndian (canonBuf F segs) .little = .ok (canonDecoder F segs 0 0) := by
  have h5 : ¬ (canonDS F segs < canonV F) := by
    simp [canonDS, canonV]
  have h6 : ¬ (canonDS F segs > canonTotal F segs) := by
    simp [canonDS, canonTotal]
  have h7 : ¬ (canonTotal F segs > canonV F ∧ canonDS F segs = canonV F) := by
    rintro ⟨ha, hb⟩
    simp only [canonTotal, canonV, canonDS, gt_iff_lt] at ha hb
    have hsegs : segs.length = 0 := by omega
    rw [hsegs] at ha hb
    rcases segs with _ | ⟨s, rest⟩
    · simp [sumLen] at ha
    · cases hsegs
  have h8 : ¬ ((canonDS F segs - canonV F) % 4 ≠ 0) := by
    simp only [canonDS, canonV]
    omega
  unfold Decoder.withEndian
  rw [canonBuf_length, readU32LE_canonBuf_zero F segs hFit, readU32LE_canonBuf_four F segs hFit,
    resolveDataOffset_canon F segs hFit]
  rw [if_neg (show ¬ canonTotal F segs < 8 by simp [canonTotal]; omega)]
  rw [if_neg (show ¬ canonTotal F segs > canonTotal F segs by omega)]
  rw [if_neg (show ¬ canonV F < 8 by simp [canonV])]
  rw [if_neg (show ¬ canonV F > canonTotal F segs by simp [canonTotal, canonV]; omega)]
  simp [canonDecoder, h5, h6, h7, h8]

theorem sumLen_take_le (segs : List (List Nat)) (k : Nat) :
    sumLen (segs.take k) ≤ sumLen segs := by
  unfold sumLen
  rw [List.map_take]
  exact sum_take_le _ _

theorem sumLen_take_succ (segs : List (List Nat)) (k : Nat) (hk : k < segs.length) :
    sumLen (segs.take (k + 1)) = sumLen (segs.take k) + (segs.getD k []).length := by
  induction segs generalizing k with
  | nil => cases hk
  | cons s rest ih =>
    cases k with
    | zero => simp [sumLen]
    | succ k =>
      simp only [List.take_succ_cons, List.getD_cons_succ, sumLen, List.map_cons, List.sum_cons]
      have := ih k (by simpa using hk)
      simp only [sumLen] at this
      omega

theorem flatten_slice (segs : List (List Nat)) :
    ∀ k, k < segs.length →
      sliceL segs.flatten (sumLen (segs.take k)) (sumLen (segs.take (k + 1))) =
        segs.getD k [] := by
  induction segs with
  | nil => intro k hk; cases hk
  | cons s rest ih =>
    intro k hk
    cases k with
    | zero =>
      simp only [List.take_zero, List.take_succ_cons, List.take_zero, sumLen, List.map_nil,
        List.sum_nil, List.map_cons, List.sum_cons, List.getD_cons_zero, List.flatten_cons]
      rw [sliceL_front _ _ _ _ (by omega)]
      unfold sliceL
      simp
    | succ k =>
      simp only [List.take_succ_cons, sumLen, List.map_cons, List.sum_cons,
        List.getD_cons_succ, List.flatten_cons]
      have hshift := sliceL_shift s rest.flatten
        (sumLen (rest.take k)) (sumLen (rest.take (k + 1)))
      simp only [sumLen] at hshift
      rw [hshift]
      exact ih k (by simpa using hk)

theorem nextFixedBytes_canon (F : List Nat) (segs : List (List Nat)) (c k n : Nat)
    (hFit : canonTotal F segs ≤ u32max) (hcn : c + n ≤ F.length) :
    (canonDecoder F segs c k).nextFixedBytes n =
      (.ok ((F.drop c).take n), canonDecoder F segs (c + n) k) := by
  have hbound : 8 + F.length + 4 * segs.length + sumLen segs ≤ u32max := by
    simpa [canonTotal] using hFit
  have hslice : sliceL (canonBuf F segs) (c + 8) (c + 8 + n) = (F.drop c).take n := by
    have hassoc : canonBuf F segs =
        (leBytes 4 (canonTotal F segs) ++ leBytes 4 (canonV F)) ++ (F ++
          (((offsetsFromL (canonDS F segs) (segs.map List.length)).map (leBytes 4)).flatten ++
            segs.flatten)) := by
      simp [canonBuf, List.append_assoc]
    have h8 : (leBytes 4 (canonTotal F segs) ++ leBytes 4 (canonV F)).length = 8 := by
      simp [leBytes_length]
    rw [hassoc,
      show c + 8 = (leBytes 4 (canonTotal F segs) ++ leBytes 4 (canonV F)).length + c by
        rw [h8]; omega,
      Nat.add_assoc, sliceL_shift, sliceL_front _ _ _ _ hcn]
    unfold sliceL
    congr 1
    omega
  unfold Decoder.nextFixedBytes
  simp only [canonDecoder]
  rw [if_neg (show ¬ canonV F < 8 by simp [canonV])]
  rw [if_neg (show ¬ c > canonV F - 8 by simp [canonV]; omega)]
  rw [if_neg (show ¬ n > canonV F - 8 - c by simp [canonV]; omega)]
  rw [if_neg (show ¬ c + 8 > u32max by omega)]
  rw [if_neg (show ¬ c + 8 + n > u32max by omega)]
  rw [if_neg (show ¬ c + n > u32max by omega)]
  rw [show sliceL (canonBuf F segs) (c + 8) (c + 8 + n) = (F.drop c).take n from hslice]

theorem readEntry_canon (F : List Nat) (segs : List (List Nat)) (c k j : Nat)
    (hFit : canonTotal F segs ≤ u32max) (hj : j < segs.length) :
    (canonDecoder F segs c k).readEntry j =
      .ok (canonDS F segs + sumLen (segs.take j)) := by
  have hbound : 8 + F.length + 4 * segs.length + sumLen segs ≤ u32max := by
    simpa [canonTotal] using hFit
  have hread : readU32LE (canonBuf F segs) (canonV F + j * 4) =
      (offsetsFromL (canonDS F segs) (segs.map List.length)).getD j 0 := by
    have hassoc : canonBuf F segs =
        (leBytes 4 (canonTotal F segs) ++ leBytes 4 (canonV F) ++ F) ++
          (((offsetsFromL (canonDS F segs) (segs.map List.length)).map (leBytes 4)).flatten ++
            segs.flatten) := by
      simp [canonBuf, List.append_assoc]
    rw [hassoc,
      show canonV F + j * 4 =
        (leBytes 4 (canonTotal F segs) ++ leBytes 4 (canonV F) ++ F).length + 4 * j by
          simp [leBytes_length, canonV]; omega,
      readU32LE_shift]
    refine readU32_flatten_entries _ j _ (by simpa [offsetsFromL_length] using hj) ?_
    intro o ho
    have := offsetsFromL_mem_bounds _ _ o ho
    refine lt_u32mod_of_le_u32max ?_
    have hsum : (segs.map List.length).sum = sumLen segs := rfl
    simp only [canonDS] at this
    omega
  have hgetD : (offsetsFromL (canonDS F segs) (segs.map List.length)).getD j 0 =
      canonDS F segs + sumLen (segs.take j) := by
    rw [offsetsFromL_getD _ _ _ (by simpa using hj)]
    congr 1
    unfold sumLen
    rw [List.map_take]
  unfold Decoder.readEntry
  simp only [canonDecoder]
  rw [if_neg (show ¬ j * 4 > u32max by omega)]
  rw [if_neg (show ¬ canonV F + j * 4 > u32max by simp [canonV]; omega)]
  rw [if_neg (show ¬ canonV F + j * 4 + 4 > u32max by simp [canonV]; omega)]
  rw [if_neg (show ¬ (canonV F + j * 4 + 4 > canonDS F segs ∨
      canonV F + j * 4 + 4 > canonTotal F segs) by
    simp [canonV, canonDS, canonTotal]
    omega)]
  rw [if_neg (show ¬ canonV F + j * 4 + 4 > (canonBuf F segs).length by
    rw [canonBuf_length]
    simp [canonV, canonTotal]
    omega)]
  rw [hread, hgetD]

theorem nextVar_canon (F : List Nat) (segs : List (List Nat)) (c k : Nat)
    (hFit : canonTotal F segs ≤ u32max) (hk : k < segs.length) :
    (canonDecoder F segs c k).nextVar =
      (.ok (segs.getD k []), canonDecoder F segs c (k + 1)) := by
  have hbound : 8 + F.length + 4 * segs.length + sumLen segs ≤ u32max := by
    simpa [canonTotal] using hFit
  have hvc : ∀ k', (canonDecoder F segs c k').varCount = segs.length := by
    intro k'
    simp [Decoder.varCount, canonDecoder, canonDS, canonV]
    try omega
  have hnvi : (canonDecoder F segs c k).nextVarIndex =
      (.ok k, canonDecoder F segs c (k + 1)) := by
    unfold Decoder.nextVarIndex
    rw [if_neg (by rw [hvc]; simp [canonDecoder]; omega)]
    rfl
  have hstart := readEntry_canon F segs c (k + 1) k hFit hk
  have hend : (if k + 1 < (canonDecoder F segs c (k + 1)).varCount then
      (canonDecoder F segs c (k + 1)).readEntry (k + 1)
      else .ok (canonDecoder F segs c (k + 1)).total_len) =
      .ok (canonDS F segs + sumLen (segs.take (k + 1))) := by
    by_cases hk1 : k + 1 < segs.length
    · rw [if_pos (by rw [hvc]; exact hk1)]
      exact readEntry_canon F segs c (k + 1) (k + 1) hFit hk1
    · rw [if_neg (by rw [hvc]; exact hk1)]
      have : segs.take (k + 1) = segs := List.take_of_length_le (by omega)
      rw [this]
      simp [canonDecoder, canonTotal, canonDS]
      try omega
  have hslice : sliceL (canonBuf F segs) (canonDS F segs + sumLen (segs.take k))
      (canonDS F segs + sumLen (segs.take (k + 1))) = segs.getD k [] := by
    have hassoc : canonBuf F segs =
        (leBytes 4 (canonTotal F segs) ++ leBytes 4 (canonV F) ++ F ++
          ((offsetsFromL (canonDS F segs) (segs.map List.length)).map (leBytes 4)).flatten) ++
          segs.flatten := by
      simp [canonBuf, List.append_assoc]
    have hplen : (leBytes 4 (canonTotal F segs) ++ leBytes 4 (canonV F) ++ F ++
        ((offsetsFromL (canonDS F segs) (segs.map List.length)).map (leBytes 4)).flatten).length =
        canonDS F segs := by
      simp [leBytes_length, flatten_map_u32_length (leBytes 4) (leBytes_length 4),
        offsetsFromL_length, canonDS]
      omega
    rw [hassoc, show canonDS F segs + sumLen (segs.take k) =
        (leBytes 4 (canonTotal F segs) ++ leBytes 4 (canonV F) ++ F ++
          ((offsetsFromL (canonDS F segs) (segs.map List.length)).map
            (leBytes 4)).flatten).length + sumLen (segs.take k) by rw [hplen],
      show canonDS F segs + sumLen (segs.take (k + 1)) =
        (leBytes 4 (canonTotal F segs) ++ leBytes 4 (canonV F) ++ F ++
          ((offsetsFromL (canonDS F segs) (segs.map List.length)).map
            (leBytes 4)).flatten).length + sumLen (segs.take (k + 1)) by rw [hplen],
      sliceL_shift]
    exact flatten_slice segs k hk
  unfold Decoder.nextVar
  rw [hnvi]
  simp only []
  rw [hstart, hend]
  simp only []
  rw [if_neg (show ¬ (canonDS F segs + sumLen (segs.take k) <
        (canonDecoder F segs c (k + 1)).data_offset ∨
      canonDS F segs + sumLen (segs.take (k + 1)) <
        canonDS F segs + sumLen (segs.take k) ∨
      canonDS F segs + sumLen (segs.take (k + 1)) >
        (canonDecoder F segs c (k + 1)).total_len) by
    simp only [canonDecoder, not_or]
    refine ⟨by omega, ?_, ?_⟩
    · have := sumLen_take_succ segs k hk
      omega
    · have h1 := sumLen_take_le segs (k + 1)
      simp [canonTotal, canonDS]
      omega)]
  rw [if_neg (show ¬ canonDS F segs + sumLen (segs.take (k + 1)) >
      (canonDecoder F segs c (k + 1)).buf.length by
    simp only [canonDecoder, canonBuf_length]
    have h1 := sumLen_take_le segs (k + 1)
    simp [canonTotal, canonDS]
    omega)]
  simp only [canonDecoder] at hslice ⊢
  rw [hslice]

/-! ## `chunks_exact` / `decode_fixed_slice` lemmas -/

theorem chunksExactGo_congr (w : Nat) :
    ∀ (f1 f2 : Nat) (bs : List Nat), bs.length ≤ f1 → bs.length ≤ f2 →
      chunksExactGo w f1 bs = chunksExactGo w f2 bs := by
  intro f1
  induction f1 with
  | zero =>
    intro f2 bs h1 h2
    have : bs = [] := List.eq_nil_of_length_eq_zero (by omega)
    subst this
    cases f2 with
    | zero => rfl
    | succ f2 =>
      unfold chunksExactGo
      by_cases hw : w = 0
      · rw [if_pos (Or.inl hw)]
      · rw [if_pos (Or.inr (by simp; omega))]
  | succ f1 ih =>
    intro f2 bs h1 h2
    cases f2 with
    | zero =>
      have : bs = [] := List.eq_nil_of_length_eq_zero (by omega)
      subst this
      unfold chunksExactGo
      by_cases hw : w = 0
      · rw [if_pos (Or.inl hw)]
      · rw [if_pos (Or.inr (by simp; omega))]
    | succ f2 =>
      unfold chunksExactGo
      by_cases hstop : w = 0 ∨ bs.length < w
      · rw [if_pos hstop, if_pos hstop]
      · rw [if_neg hstop, if_neg hstop]
        congr 1
        refine ih f2 (bs.drop w) (by simp; omega) (by simp; omega)

theorem chunksExact_cons {w : Nat} (hw : 1 ≤ w) (c rest : List Nat) (hc : c.length = w) :
    chunksExact w (c ++ rest) = c :: chunksExact w rest := by
  have hlen : (c ++ rest).length = w + rest.length := by simp [hc]
  show chunksExactGo w (c ++ rest).length (c ++ rest) = c :: chunksExact w rest
  rw [hlen, show w + rest.length = (w - 1 + rest.length) + 1 by omega]
  rw [show chunksExactGo w ((w - 1 + rest.length) + 1) (c ++ rest) =
    (if w = 0 ∨ (c ++ rest).length < w then []
     else (c ++ rest).take w :: chunksExactGo w (w - 1 + rest.length) ((c ++ rest).drop w))
    from rfl]
  rw [if_neg (by
    rintro (h | h)
    · omega
    · rw [List.length_append, hc] at h
      omega)]
  congr 1
  · rw [List.take_append_of_le_length (by omega), List.take_of_length_le (by omega)]
  · rw [show (c ++ rest).drop w = rest by rw [← hc, List.drop_left]]
    show chunksExactGo w (w - 1 + rest.length) rest = chunksExactGo w rest.length rest
    exact chunksExactGo_congr w (w - 1 + rest.length) rest.length rest (by omega)
      (Nat.le_refl _)

theorem chunksExact_flatten {w : Nat} (hw : 1 ≤ w) :
    ∀ cs : List (List Nat), (∀ c ∈ cs, c.length = w) → chunksExact w cs.flatten = cs := by
  intro cs
  induction cs with
  | nil => intro _; rfl
  | cons c cs ih =>
    intro hcs
    rw [List.flatten_cons, chunksExact_cons hw c cs.flatten (hcs c (by simp))]
    rw [ih (fun x hx => hcs x (by simp [hx]))]

/-- Decoding a serialized sequence of in-range `w`-byte values restores it. -/
theorem decodeFixedSlice_pushed (endian : Endian) {w : Nat} (hw : 1 ≤ w) (vs : List Nat)
    (hvs : ∀ v ∈ vs, v < 256 ^ w) :
    decodeFixedSlice w endian ((vs.map (pushFixedData endian w)).flatten) = .ok vs := by
  unfold decodeFixedSlice
  rw [if_neg (by
    rw [flatten_map_length w _ (pushFixedData_length endian w) vs]
    simp
    omega)]
  rw [chunksExact_flatten hw _ (by
    intro c hc
    rcases List.mem_map.mp hc with ⟨v, _, rfl⟩
    exact pushFixedData_length endian w v)]
  rw [List.map_map]
  congr 1
  rw [show readFixed endian ∘ pushFixedData endian w = fun v => readFixed endian
    (pushFixedData endian w v) from rfl]
  calc vs.map (fun v => readFixed endian (pushFixedData endian w v))
      = vs.map id := List.map_congr_left (fun v hv => readFixed_pushFixedData endian (hvs v hv))
    _ = vs := List.map_id vs

/-- Pushing raw bytes (`u8` elements) reproduces the byte string. -/
theorem push_bytes_id (endian : Endian) (bs : List Nat) (hbs : ∀ b ∈ bs, b < 256) :
    (bs.map (pushFixedData endian 1)).flatten = bs := by
  induction bs with
  | nil => rfl
  | cons b bs ih =>
    have hb : pushFixedData endian 1 b = [b] := by
      have : b % 256 = b := Nat.mod_eq_of_lt (hbs b (by simp))
      cases endian <;> simp [pushFixedData, leBytes, this]
    simp only [List.map_cons, List.flatten_cons, hb]
    rw [ih (fun x hx => hbs x (by simp [hx]))]
    rfl

theorem getD_append_length {α : Type} (A B : List α) (i : Nat) (d : α) :
    (A ++ B).getD (A.length + i) d = B.getD i d := by
  induction A with
  | nil => simp
  | cons a A ih =>
    simp only [List.cons_append, List.length_cons]
    rw [show A.length + 1 + i = (A.length + i) + 1 by omega, List.getD_cons_succ]
    exact ih

theorem varCount_canon (F : List Nat) (segs : List (List Nat)) (c k : Nat) :
    (canonDecoder F segs c k).varCount = segs.length := by
  simp [Decoder.varCount, canonDecoder, canonDS, canonV]
  try omega

/-- The var2 decode loop over the canonical decoder consumes exactly the
remaining segments and decodes them element-wise. -/
theorem var2Loop_canon (F : List Nat) (segs : List (List Nat)) (c : Nat)
    (dec : List Nat → Except CodecError (List Nat))
    (hFit : canonTotal F segs ≤ u32max) :
    ∀ (rest gs Sp : List (List Nat)),
      segs = Sp ++ rest →
      List.Forall₂ (fun s g => dec s = .ok g) rest gs →
      var2Loop dec rest.length (canonDecoder F segs c Sp.length) =
        (.ok gs, canonDecoder F segs c segs.length) := by
  intro rest
  induction rest generalizing c with
  | nil =>
    intro gs Sp hseg hf
    cases hf
    have hlen : Sp.length = segs.length := by rw [hseg]; simp
    simp only [List.length_nil]
    rw [show var2Loop dec 0 (canonDecoder F segs c Sp.length) =
      (.ok [], canonDecoder F segs c Sp.length) from rfl, hlen]
  | cons s rest' ih =>
    intro gs Sp hseg hf
    rcases hf with _ | ⟨hdec, hf'⟩
    rename_i g gs'
    have hk : Sp.length < segs.length := by
      rw [hseg]
      simp
      try omega
    have hgetD : segs.getD Sp.length [] = s := by
      rw [hseg, show Sp.length = Sp.length + 0 from rfl, getD_append_length]
      rfl
    simp only [List.length_cons]
    rw [show var2Loop dec (rest'.length + 1) (canonDecoder F segs c Sp.length) =
      (if (canonDecoder F segs c Sp.length).var_cursor <
          (canonDecoder F segs c Sp.length).varCount then
        match (canonDecoder F segs c Sp.length).nextVar with
        | (.error er, d') => (.error er, d')
        | (.ok bs, d') =>
          match dec bs with
          | .error er => (.error er, d')
          | .ok item =>
            match var2Loop dec rest'.length d' with
            | (.error er, d'') => (.error er, d'')
            | (.ok items, d'') => (.ok (item :: items), d'')
      else (.ok [], canonDecoder F segs c Sp.length)) from rfl]
    rw [if_pos (by rw [varCount_canon]; simpa [canonDecoder] using hk)]
    rw [nextVar_canon F segs c Sp.length hFit hk]
    simp only []
    rw [hgetD, hdec]
    simp only []
    have hrec := ih c gs' (Sp ++ [s]) (by rw [hseg]; simp) hf'
    rw [show Sp.length + 1 = (Sp ++ [s]).length by simp] at *
    rw [hrec]

/-- Dropping a prefix and taking the middle block of a three-part
concatenation. -/
theorem drop_take_middle (Fp x Fs : List Nat) :
    ((Fp ++ x ++ Fs).drop Fp.length).take x.length = x := by
  rw [List.append_assoc, List.drop_left, List.take_left]

/-- Per-field decode correctness over the canonical decoder: decoding a
field whose contributions sit at the cursor positions yields its view and
advances the cursors past them. -/
theorem decodeField_canon (F : List Nat) (segs : List (List Nat))
    (fv : FieldVal) (b : Bool) (Fp Fs : List Nat) (Sp Ss : List (List Nat))
    (hFit : canonTotal F segs ≤ u32max)
    (hwf : wfField fv = true)
    (hF : F = Fp ++ fFix .little fv ++ Fs)
    (hS : segs = Sp ++ fSegs .little fv ++ Ss)
    (hlast : isVar2 fv = true → b = true ∧ Ss = []) :
    decodeField b (tyOf fv) (canonDecoder F segs Fp.length Sp.length) =
      (.ok (viewOf fv),
        canonDecoder F segs (Fp.length + (fFix .little fv).length)
          (Sp.length + (fSegs .little fv).length)) := by
  have hFtot : F.length + 8 ≤ canonTotal F segs := by
    simp [canonTotal]
    omega
  cases fv with
  | fixedScalar w v =>
    simp only [wfField, Bool.and_eq_true, decide_eq_true_eq] at hwf
    obtain ⟨hw, hv⟩ := hwf
    have hcn : Fp.length + w ≤ F.length := by
      rw [hF]
      simp [fFix, pushFixedData_length]
    have hbytes : (F.drop Fp.length).take w = pushFixedData .little w v := by
      have h := drop_take_middle Fp (pushFixedData .little w v) Fs
      rw [pushFixedData_length] at h
      rw [hF]
      simp only [fFix]
      exact h
    simp only [tyOf, decodeField]
    rw [nextFixedBytes_canon F segs Fp.length Sp.length w hFit hcn]
    simp only []
    rw [hbytes, if_pos (pushFixedData_length .little w v)]
    simp [canonDecoder, readFixed_pushFixedData .little hv, viewOf, fFix, fSegs,
      pushFixedData_length]
  | fixedArray w vs =>
    simp only [wfField, Bool.and_eq_true, decide_eq_true_eq, List.all_eq_true] at hwf
    obtain ⟨hw, hvs⟩ := hwf
    have hxlen : (fFix .little (.fixedArray w vs)).length = w * vs.length := by
      simp only [fFix]
      exact flatten_map_length w _ (pushFixedData_length .little w) vs
    have hcn : Fp.length + w * vs.length ≤ F.length := by
      rw [hF]
      simp [← hxlen]
    have hmod : (w * vs.length) % u32mod = w * vs.length := by
      refine Nat.mod_eq_of_lt (lt_u32mod_of_le_u32max ?_)
      simp [canonTotal] at hFit
      omega
    have hbytes : (F.drop Fp.length).take (w * vs.length) =
        (vs.map (pushFixedData .little w)).flatten := by
      rw [hF, show w * vs.length = (fFix Endian.little (.fixedArray w vs)).length from
        hxlen.symm]
      exact drop_take_middle _ _ _
    simp only [tyOf, decodeField]
    rw [hmod, nextFixedBytes_canon F segs Fp.length Sp.length (w * vs.length) hFit hcn]
    simp only []
    rw [hbytes]
    have hdec : decodeFixedSlice w (canonDecoder F segs
        (Fp.length + w * vs.length) Sp.length).endian
        ((vs.map (pushFixedData .little w)).flatten) = .ok vs := by
      simp only [canonDecoder]
      exact decodeFixedSlice_pushed .little hw vs (fun v hv => hvs v hv)
    rw [hdec]
    simp [canonDecoder, viewOf, fFix, fSegs, hxlen]
    rw [show (List.length ∘ pushFixedData Endian.little w) = fun _ => w from
      funext (pushFixedData_length Endian.little w)]
    simp [List.sum_replicate]
    try ring
  | var1Bytes bs =>
    simp only [wfField, List.all_eq_true, decide_eq_true_eq] at hwf
    have hseg_id : fSegs .little (.var1Bytes bs) = [bs] := by
      simp only [fSegs]
      rw [push_bytes_id .little bs hwf]
    rw [hseg_id] at hS
    have hk : Sp.length < segs.length := by rw [hS]; simp
    have hgetD : segs.getD Sp.length [] = bs := by
      rw [hS, List.append_assoc, show Sp.length = Sp.length + 0 from rfl, getD_append_length]
      rfl
    simp only [tyOf, decodeField]
    rw [nextVar_canon F segs Fp.length Sp.length hFit hk]
    simp only []
    rw [hgetD]
    simp [canonDecoder, viewOf, fFix, hseg_id]
  | var1Fixed w vs =>
    simp only [wfField, Bool.and_eq_true, decide_eq_true_eq, List.all_eq_true] at hwf
    obtain ⟨hw, hvs⟩ := hwf
    have hk : Sp.length < segs.length := by rw [hS]; simp [fSegs]
    have hgetD : segs.getD Sp.length [] = (vs.map (pushFixedData .little w)).flatten := by
      rw [hS, show fSegs Endian.little (.var1Fixed w vs) =
          [(vs.map (pushFixedData .little w)).flatten] from rfl,
        List.append_assoc, show Sp.length = Sp.length + 0 from rfl, getD_append_length]
      rfl
    simp only [tyOf, decodeField]
    rw [nextVar_canon F segs Fp.length Sp.length hFit hk]
    simp only []
    rw [hgetD]
    have hdec : decodeFixedSlice w (canonDecoder F segs Fp.length (Sp.length + 1)).endian
        ((vs.map (pushFixedData .little w)).flatten) = .ok vs := by
      simp only [canonDecoder]
      exact decodeFixedSlice_pushed .little hw vs (fun v hv => hvs v hv)
    rw [hdec]
    simp [canonDecoder, viewOf, fFix, fSegs]
  | var2Bytes ss =>
    obtain ⟨hb, hSs⟩ := hlast rfl
    subst hb hSs
    simp only [wfField, List.all_eq_true, decide_eq_true_eq] at hwf
    have hseg_id : fSegs .little (.var2Bytes ss) = ss := by
      simp only [fSegs]
      calc ss.map (fun s => (s.map (pushFixedData .little 1)).flatten)
          = ss.map id := List.map_congr_left (fun s hs =>
            push_bytes_id .little s (fun x hx => hwf s hs x hx))
        _ = ss := List.map_id ss
    rw [hseg_id] at hS
    rw [List.append_nil] at hS
    have hfuel : (canonDecoder F segs Fp.length Sp.length).varCount -
        (canonDecoder F segs Fp.length Sp.length).var_cursor = ss.length := by
      rw [varCount_canon]
      simp only [canonDecoder]
      rw [hS]
      simp
    simp only [tyOf, decodeField, if_true]
    rw [hfuel]
    rw [var2Loop_canon F segs Fp.length (fun bs => .ok bs) hFit ss ss Sp hS
      (List.forall₂_same.mpr (fun x _ => rfl))]
    simp only []
    rw [hS]
    simp [canonDecoder, viewOf, fFix, hseg_id]
  | var2Fixed w ss =>
    obtain ⟨hb, hSs⟩ := hlast rfl
    subst hb hSs
    simp only [wfField, Bool.and_eq_true, decide_eq_true_eq, List.all_eq_true] at hwf
    obtain ⟨hw, hss⟩ := hwf
    rw [List.append_nil] at hS
    have hfuel : (canonDecoder F segs Fp.length Sp.length).varCount -
        (canonDecoder F segs Fp.length Sp.length).var_cursor =
        (fSegs .little (.var2Fixed w ss)).length := by
      rw [varCount_canon]
      simp only [canonDecoder]
      rw [hS]
      simp
    simp only [tyOf, decodeField, if_true]
    rw [hfuel]
    have hforall : List.Forall₂ (fun s g =>
        decodeFixedSlice w (canonDecoder F segs Fp.length Sp.length).endian s = .ok g)
        (fSegs .little (.var2Fixed w ss)) ss := by
      simp only [fSegs, canonDecoder]
      rw [List.forall₂_map_left_iff]
      refine List.forall₂_same.mpr (fun s hs => ?_)
      exact decodeFixedSlice_pushed .little hw s (fun v hv => hss s hs v hv)
    rw [var2Loop_canon F segs Fp.length _ hFit (fSegs .little (.var2Fixed w ss)) ss Sp
      hS hforall]
    simp only []
    rw [hS]
    simp [canonDecoder, viewOf, fFix, fSegs]

/-- The derived decode walk over the canonical decoder: decoding the
remaining fields in order yields their views and leaves both cursors at the
end of their regions. -/
theorem decodeFields_canon (F : List Nat) (segs : List (List Nat))
    (hFit : canonTotal F segs ≤ u32max) :
    ∀ (ps : List (FieldVal × Bool)) (Fp : List Nat) (Sp : List (List Nat)),
      F = Fp ++ fFixAll .little (ps.map Prod.fst) →
      segs = Sp ++ fSegsAll .little (ps.map Prod.fst) →
      (∀ p ∈ ps, wfField p.1 = true) →
      (∀ p ∈ ps.dropLast, isVar2 p.1 = false) →
      (∀ p ∈ ps, isVar2 p.1 = true → p.2 = true) →
      decodeFields (ps.map (fun p => (tyOf p.1, p.2)))
          (canonDecoder F segs Fp.length Sp.length) =
        (.ok (ps.map (fun p => viewOf p.1)), canonDecoder F segs F.length segs.length) := by
  intro ps
  induction ps with
  | nil =>
    intro Fp Sp hF hS _ _ _
    have h1 : Fp.length = F.length := by rw [hF]; simp [fFixAll]
    have h2 : Sp.length = segs.length := by rw [hS]; simp [fSegsAll]
    simp [decodeFields, h1, h2]
  | cons p ps' ih =>
    intro Fp Sp hF hS hwf hplace hflag
    obtain ⟨fv, b⟩ := p
    have hF2 : F = Fp ++ fFix .little fv ++ fFixAll .little (ps'.map Prod.fst) := by
      rw [hF]
      simp [fFixAll, List.append_assoc]
    have hS2 : segs = Sp ++ fSegs .little fv ++ fSegsAll .little (ps'.map Prod.fst) := by
      rw [hS]
      simp [fSegsAll, List.append_assoc]
    have hlast : isVar2 fv = true → b = true ∧
        fSegsAll .little (ps'.map Prod.fst) = [] := by
      intro hv2
      refine ⟨hflag (fv, b) (by simp) hv2, ?_⟩
      cases ps' with
      | nil => simp [fSegsAll]
      | cons q qs =>
        have hmem : (fv, b) ∈ ((fv, b) :: q :: qs).dropLast := by
          rw [List.dropLast_cons₂]
          exact List.mem_cons_self _ _
        have := hplace _ hmem
        rw [hv2] at this
        cases this
    have hstep := decodeField_canon F segs fv b Fp
      (fFixAll .little (ps'.map Prod.fst)) Sp (fSegsAll .little (ps'.map Prod.fst))
      hFit (hwf (fv, b) (by simp)) hF2 hS2 hlast
    simp only [List.map_cons, decodeFields]
    rw [hstep]
    simp only []
    have hrec := ih (Fp ++ fFix .little fv) (Sp ++ fSegs .little fv)
      (by rw [hF2])
      (by rw [hS2])
      (fun q hq => hwf q (by simp [hq]))
      (by
        intro q hq
        apply hplace
        cases ps' with
        | nil => simp at hq
        | cons r rs =>
          rw [List.dropLast_cons₂]
          exact List.mem_cons_of_mem _ hq)
      (fun q hq h => hflag q (by simp [hq]) h)
    rw [List.length_append, List.length_append] at hrec
    rw [hrec]

/-! ## Encode-side characterization -/

/-- The per-inner-vector fold of the var2 `encode_field` appends one
`var_length` entry and one data segment per inner vector. -/
theorem var2_foldl (w : Nat) :
    ∀ (ss : List (List Nat)) (e : Encoder),
      ss.foldl (fun acc s =>
        let p := pushVar1Data acc.endian w s acc.var_length acc.data
        { acc with var_length := p.1, data := p.2 }) e =
      { e with var_length := e.var_length ++ ss.map (fun s => (s.length * w) % u32mod),
               data := e.data ++
                 (ss.map (fun s => (s.map (pushFixedData e.endian w)).flatten)).flatten } := by
  intro ss
  induction ss with
  | nil => intro e; cases e; simp
  | cons s ss ih =>
    intro e
    rw [List.foldl_cons, ih]
    cases e
    simp [pushVar1Data, List.append_assoc]

/-- `encode_field` succeeds (given a correctly flagged var2) and appends
exactly the field's fixed bytes, entry lengths, and data segments. -/
theorem encodeField_some (fv : FieldVal) (b : Bool) (e : Encoder)
    (hb : isVar2 fv = true → b = true) :
    encodeField b fv e = some
      { e with fixed := e.fixed ++ fFix e.endian fv,
               var_length := e.var_length ++
                 (fSegs e.endian fv).map (fun s => s.length % u32mod),
               data := e.data ++ (fSegs e.endian fv).flatten } := by
  cases fv with
  | fixedScalar w v => cases e; simp [encodeField, fFix, fSegs]
  | fixedArray w vs => cases e; simp [encodeField, fFix, fSegs]
  | var1Bytes bs =>
    have hl : ((bs.map (pushFixedData e.endian 1)).flatten).length = 1 * bs.length :=
      flatten_map_length 1 _ (pushFixedData_length e.endian 1) bs
    cases e
    simp_all [encodeField, pushVar1Data, fFix, fSegs]
  | var1Fixed w vs =>
    have hl : ((vs.map (pushFixedData e.endian w)).flatten).length = w * vs.length :=
      flatten_map_length w _ (pushFixedData_length e.endian w) vs
    cases e
    simp_all [encodeField, pushVar1Data, fFix, fSegs, Nat.mul_comm]
  | var2Bytes ss =>
    rw [hb rfl]
    simp only [encodeField, if_true]
    rw [var2_foldl 1 ss e]
    have hmap : (ss.map (fun s => (s.map (pushFixedData e.endian 1)).flatten)).map
        (fun s => s.length % u32mod) = ss.map (fun s => (s.length * 1) % u32mod) := by
      rw [List.map_map]
      refine List.map_congr_left (fun s _ => ?_)
      have hl : ((s.map (pushFixedData e.endian 1)).flatten).length = 1 * s.length :=
        flatten_map_length 1 _ (pushFixedData_length e.endian 1) s
      simp only [Function.comp_apply, hl, Nat.mul_comm]
    cases e
    simp_all [fFix, fSegs]
  | var2Fixed w ss =>
    rw [hb rfl]
    simp only [encodeField, if_true]
    rw [var2_foldl w ss e]
    have hmap : (ss.map (fun s => (s.map (pushFixedData e.endian w)).flatten)).map
        (fun s => s.length % u32mod) = ss.map (fun s => (s.length * w) % u32mod) := by
      rw [List.map_map]
      refine List.map_congr_left (fun s _ => ?_)
      have hl : ((s.map (pushFixedData e.endian w)).flatten).length = w * s.length :=
        flatten_map_length w _ (pushFixedData_length e.endian w) s
      simp only [Function.comp_apply, hl, Nat.mul_comm]
    cases e
    simp_all [fFix, fSegs]

/-- The derived encode walk appends all fields' contributions in order. -/
theorem encodeFields_some :
    ∀ (ps : List (FieldVal × Bool)) (e : Encoder),
      (∀ p ∈ ps, isVar2 p.1 = true → p.2 = true) →
      encodeFields ps e = some
        { e with fixed := e.fixed ++ fFixAll e.endian (ps.map Prod.fst),
                 var_length := e.var_length ++
                   (fSegsAll e.endian (ps.map Prod.fst)).map (fun s => s.length % u32mod),
                 data := e.data ++ (fSegsAll e.endian (ps.map Prod.fst)).flatten } := by
  intro ps
  induction ps with
  | nil => intro e _; cases e; simp [encodeFields, fFixAll, fSegsAll]
  | cons p ps' ih =>
    intro e hflag
    obtain ⟨fv, b⟩ := p
    simp only [encodeFields]
    rw [encodeField_some fv b e (hflag (fv, b) (by simp))]
    simp only []
    rw [ih _ (fun q hq h => hflag q (by simp [hq]) h)]
    cases e
    simp [fFixAll, fSegsAll, List.append_assoc]

/-! ## The flag assignment -/

theorem withFlags_map_fst (fs : List FieldVal) : (withFlags fs).map Prod.fst = fs := by
  induction fs with
  | nil => rfl
  | cons fv rest ih => simp [withFlags, ih]

theorem withFlags_mem_fst {fs : List FieldVal} {p : FieldVal × Bool}
    (hp : p ∈ withFlags fs) : p.1 ∈ fs := by
  have := List.mem_map_of_mem Prod.fst hp
  rwa [withFlags_map_fst] at this

theorem isVarField_of_isVar2 {fv : FieldVal} (h : isVar2 fv = true) :
    isVarField fv = true := by
  cases fv <;> simp_all [isVar2, isVarField]

/-- With the placement rule satisfied, every var2 field receives flag
`true` (it is the last variable field). -/
theorem withFlags_flag_var2 (fs : List FieldVal)
    (hplace : ∀ fv ∈ fs.dropLast, isVar2 fv = false) :
    ∀ p ∈ withFlags fs, isVar2 p.1 = true → p.2 = true := by
  induction fs with
  | nil => intro p hp; cases hp
  | cons fv rest ih =>
    intro p hp hv2
    simp only [withFlags, List.mem_cons] at hp
    rcases hp with rfl | hp
    · simp only at hv2 ⊢
      cases rest with
      | nil => simp [lastVarIdx, isVarField_of_isVar2 hv2]
      | cons q qs =>
        have hmem : fv ∈ (fv :: q :: qs).dropLast := by
          rw [List.dropLast_cons₂]
          exact List.mem_cons_self _ _
        have := hplace _ hmem
        rw [hv2] at this
        cases this
    · refine ih ?_ p hp hv2
      intro fv' hfv'
      apply hplace
      cases rest with
      | nil => cases hfv'
      | cons q qs =>
        rw [List.dropLast_cons₂]
        exact List.mem_cons_of_mem _ hfv'

theorem withFlags_dropLast (fs : List FieldVal) :
    ∀ p ∈ (withFlags fs).dropLast, p.1 ∈ fs.dropLast := by
  induction fs with
  | nil => intro p hp; cases hp
  | cons fv rest ih =>
    intro p hp
    cases rest with
    | nil => simp [withFlags] at hp
    | cons q qs =>
      simp only [withFlags] at hp
      rw [List.dropLast_cons₂] at hp
      rw [List.dropLast_cons₂]
      rcases List.mem_cons.mp hp with rfl | hp'
      · exact List.mem_cons_self _ _
      · exact List.mem_cons_of_mem _ (ih p (by simpa [withFlags] using hp'))

/-! ## C1: the full roundtrip -/

/-- **C1**: for every well-formed record value satisfying the placement
rule whose payload fits in `u32`, encoding each field in declared order
(with `IS_LAST_VAR` true exactly on the last variable field), finalizing
into an empty output, constructing a decoder over the output, and decoding
each field type in the same order with the same flags succeeds and yields
views field-wise equal to the original value. -/
theorem roundtrip_with_variables (hostBig : Bool) (fs : List FieldVal)
    (hwf : ∀ fv ∈ fs, wfField fv = true)
    (hplace : ∀ fv ∈ fs.dropLast, isVar2 fv = false)
    (hfit : canonTotal (fFixAll .little fs) (fSegsAll .little fs) ≤ u32max) :
    ∃ enc out d dfin,
      encodeFields (withFlags fs) (Encoder.mk .little [] [] []) = some enc ∧
      Encoder.finalize hostBig enc [] = .ok out ∧
      Decoder.withEndian out .little = .ok d ∧
      decodeFields ((withFlags fs).map (fun p => (tyOf p.1, p.2))) d =
        (.ok (fs.map viewOf), dfin) := by
  have hflag := withFlags_flag_var2 fs hplace
  have hmod : (fSegsAll .little fs).map (fun s => s.length % u32mod) =
      (fSegsAll .little fs).map List.length := by
    refine List.map_congr_left (fun s hs => ?_)
    refine Nat.mod_eq_of_lt (lt_u32mod_of_le_u32max ?_)
    have h1 : s.length ≤ sumLen (fSegsAll .little fs) := by
      unfold sumLen
      exact List.single_le_sum (fun _ _ => Nat.zero_le _) _ (List.mem_map_of_mem _ hs)
    have h2 : sumLen (fSegsAll .little fs) ≤
        canonTotal (fFixAll .little fs) (fSegsAll .little fs) := by
      simp [canonTotal]
      try omega
    omega
  have henc := encodeFields_some (withFlags fs) ⟨.little, [], [], []⟩ hflag
  rw [withFlags_map_fst] at henc
  simp only [List.nil_append] at henc
  rw [hmod] at henc
  have hwle : write_u32_endian hostBig .little = leBytes 4 := funext fun n => rfl
  have hfin : Encoder.finalize hostBig
      ⟨.little, fFixAll .little fs, (fSegsAll .little fs).map List.length,
        (fSegsAll .little fs).flatten⟩ [] =
      .ok (canonBuf (fFixAll .little fs) (fSegsAll .little fs)) := by
    have hsum : ((fSegsAll .little fs).map List.length).sum =
        ((fSegsAll .little fs).flatten).length := (List.length_flatten _).symm
    have hfit2 : 8 + (fFixAll .little fs).length +
        4 * ((fSegsAll .little fs).map List.length).length +
        ((fSegsAll .little fs).flatten).length ≤ u32max := by
      simp only [List.length_map, List.length_flatten]
      simpa [canonTotal, sumLen] using hfit
    have h := finalize_ok_eq hostBig
      ⟨.little, fFixAll .little fs, (fSegsAll .little fs).map List.length,
        (fSegsAll .little fs).flatten⟩ hsum hfit2
    rw [h]
    congr 1
    have hT : canonTotal (fFixAll .little fs) (fSegsAll .little fs) =
        8 + (fFixAll .little fs).length +
          ((fSegsAll .little fs).map List.length).length * 4 +
          ((fSegsAll .little fs).flatten).length := by
      simp [canonTotal, sumLen, List.length_map, List.length_flatten]
      ring
    have hDS : canonDS (fFixAll .little fs) (fSegsAll .little fs) =
        8 + (fFixAll .little fs).length +
          ((fSegsAll .little fs).map List.length).length * 4 := by
      simp [canonDS, List.length_map]
      ring
    simp only [hwle, canonBuf, hT, hDS,
      show canonV (fFixAll .little fs) = 8 + (fFixAll .little fs).length from rfl]
  have hdec0 := withEndian_canon (fFixAll .little fs) (fSegsAll .little fs) hfit
  have hwalk := decodeFields_canon (fFixAll .little fs) (fSegsAll .little fs) hfit
    (withFlags fs) [] []
    (by rw [withFlags_map_fst]; rfl)
    (by rw [withFlags_map_fst]; rfl)
    (fun p hp => hwf p.1 (withFlags_mem_fst hp))
    (fun p hp => hplace p.1 (withFlags_dropLast fs p hp))
    hflag
  have hviews : (withFlags fs).map (fun p => viewOf p.1) = fs.map viewOf := by
    rw [show (fun p : FieldVal × Bool => viewOf p.1) = viewOf ∘ Prod.fst from rfl,
      ← List.map_map, withFlags_map_fst]
  refine ⟨_, canonBuf (fFixAll .little fs) (fSegsAll .little fs),
    canonDecoder (fFixAll .little fs) (fSegsAll .little fs) 0 0,
    canonDecoder (fFixAll .little fs) (fSegsAll .little fs)
      (fFixAll .little fs).length (fSegsAll .little fs).length,
    henc, hfin, hdec0, ?_⟩
  rw [show canonDecoder (fFixAll .little fs) (fSegsAll .little fs) 0 0 =
    canonDecoder (fFixAll .little fs) (fSegsAll .little fs)
      (List.length []) (List.length []) from rfl]
  rw [hwalk, hviews]

/-- Witness for `roundtrip_with_variables`: a record with one fixed
scalar, one fixed array, one var1 byte field, one var1 `u16` field and a
trailing var2 field. -/
theorem roundtrip_with_variables_witness :
    ((∀ fv ∈ [FieldVal.fixedScalar 1 170, FieldVal.fixedArray 2 [258, 772],
        FieldVal.var1Bytes [10, 11], FieldVal.var1Fixed 2 [513],
        FieldVal.var2Fixed 2 [[1, 2], [3]]], wfField fv = true) ∧
      (∀ fv ∈ ([FieldVal.fixedScalar 1 170, FieldVal.fixedArray 2 [258, 772],
        FieldVal.var1Bytes [10, 11], FieldVal.var1Fixed 2 [513],
        FieldVal.var2Fixed 2 [[1, 2], [3]]] : List FieldVal).dropLast,
        isVar2 fv = false) ∧
      canonTotal (fFixAll .little [FieldVal.fixedScalar 1 170,
          FieldVal.fixedArray 2 [258, 772], FieldVal.var1Bytes [10, 11],
          FieldVal.var1Fixed 2 [513], FieldVal.var2Fixed 2 [[1, 2], [3]]])
        (fSegsAll .little [FieldVal.fixedScalar 1 170,
          FieldVal.fixedArray 2 [258, 772], FieldVal.var1Bytes [10, 11],
          FieldVal.var1Fixed 2 [513], FieldVal.var2Fixed 2 [[1, 2], [3]]]) ≤ u32max) ∧
    ∃ enc out d dfin,
      encodeFields (withFlags [FieldVal.fixedScalar 1 170,
          FieldVal.fixedArray 2 [258, 772], FieldVal.var1Bytes [10, 11],
          FieldVal.var1Fixed 2 [513], FieldVal.var2Fixed 2 [[1, 2], [3]]])
        (Encoder.mk .little [] [] []) = some enc ∧
      Encoder.finalize false enc [] = .ok out ∧
      Decoder.withEndian out .little = .ok d ∧
      decodeFields ((withFlags [FieldVal.fixedScalar 1 170,
          FieldVal.fixedArray 2 [258, 772], FieldVal.var1Bytes [10, 11],
          FieldVal.var1Fixed 2 [513], FieldVal.var2Fixed 2 [[1, 2], [3]]]).map
        (fun p => (tyOf p.1, p.2))) d =
        (.ok ([FieldVal.fixedScalar 1 170, FieldVal.fixedArray 2 [258, 772],
          FieldVal.var1Bytes [10, 11], FieldVal.var1Fixed 2 [513],
          FieldVal.var2Fixed 2 [[1, 2], [3]]].map viewOf), dfin) :=
  ⟨⟨by decide, by decide, by decide⟩,
    roundtrip_with_variables false _ (by decide) (by decide) (by decide)⟩

end Pufu
